import Mathlib

/-!
Verification of the erasure-coding I/O engine (stripe geometry, shard extent
maps, extent cache, read/RMW pipelines, hash-info registry) of this
repository, by shallow embedding of the relevant C++ into Lean.

Conventions used throughout:
* machine integers (`uint64_t`, `size_t`, `int8_t`) are modelled as `Nat`/`Int`
  with explicit `% 2^w` reductions at the points where C++ would wrap;
* `extent_set` / the footprint of an `extent_map` (an ordered, coalesced,
  disjoint set of half-open byte intervals) is modelled by the set of byte
  offsets it covers (`Finset Nat`); the operations used by the embedded code
  (insert, subtract, intersection, containment, emptiness) are exactly the
  set operations under this view;
* `std::map<int, extent_set>` values that the code keeps free of empty
  entries are modelled as total functions returning `∅` for absent keys,
  so map-level emptiness coincides with all entries being empty;
* fallible code (thrown exceptions, `ceph_assert` aborts) returns
  `Option`/`Except`.
-/

namespace ECProof

/-! ## Hash info (ECUtil::HashInfo, ECCommon::UnstableHashInfoRegistry) -/

/-- `ECUtil::HashInfo`: total chunk size plus cumulative per-shard CRCs. -/
structure HashInfo where
  total_chunk_size : Nat
  cumulative_shard_hashes : List Nat
deriving DecidableEq, Repr

/-- `HashInfo(unsigned num_chunks)`: hashes initialised to `(uint32_t)-1`. -/
def HashInfo.init (num_chunks : Nat) : HashInfo :=
  { total_chunk_size := 0
    cumulative_shard_hashes := List.replicate num_chunks (2 ^ 32 - 1) }

/-- Shallow embedding of `ECCommon::UnstableHashInfoRegistry::get_hash_info`.
`cached` is the result of `registry.lookup(hoid)`; `attr` is the value of the
`"hinfo_key"` object attribute when present (`none` when the attribute is
missing); `decodeBlob` abstracts `decode(hinfo, bp)` over the blob's bytes,
returning `none` exactly when decoding throws.  The returned `Option HashInfo`
models the returned `HashInfoRef`, `none` being a null reference
(`registry.lookup_or_create` installs and returns the given record). -/
def get_hash_info (cached : Option HashInfo) (create : Bool)
    (attr : Option (List Nat)) (size : Nat)
    (decodeBlob : List Nat → Option HashInfo) (chunk_count : Nat) :
    Option HashInfo :=
  match cached with
  | some ref => some ref
  | none =>
    let hinfo0 : HashInfo := HashInfo.init chunk_count
    let bl : List Nat := match attr with | none => [] | some b => b
    if bl.length > 0 then
      match decodeBlob bl with
      | none => none
      | some hinfo =>
        if hinfo.total_chunk_size ≠ size then none
        else some hinfo
    else if size = 0 then some hinfo0
    else if create then some hinfo0
    else none

/-! ## RMW pipeline (ECCommon::RMWPipeline) -/

/-- The fields of `ECCommon::RMWPipeline::Op` relevant to the pipeline's
queue transitions.  Versions (`eversion_t`) are abstracted to `Nat`;
`will_write` holds `plan.will_write` as per-object extent footprints; the
Boolean `remote_read_outstanding` models `Op::read_in_progress()`.
Modelled from the spec: the declaration of `Op` (its header) is not in the
sources; field meanings follow the spec's RMW Op description. -/
structure RMWOp where
  tid : Nat
  reqid : Nat
  version : Nat
  pg_committed_to : Nat
  pending_apply : Finset Nat
  pending_commit : Finset Nat
  will_write : List (Nat × Finset Nat)
  remote_read_outstanding : Bool
  using_cache : Bool
deriving DecidableEq

/-- The RMW pipeline state: the three op queues, the set of registered tids
(`tid_to_op_map`'s key set), the pipeline cache state (`true` = cache_valid,
`false` = cache_invalid; `pipeline_state.clear()` sets it to valid), and the
two watermarks. -/
structure RMWState where
  waiting_state : List RMWOp
  waiting_reads : List RMWOp
  waiting_commit : List RMWOp
  tid_to_op : List Nat
  pipeline_valid : Bool
  completed_to : Nat
  committed_to : Nat
deriving DecidableEq

/-- Modelled from the spec: `Op::write_in_progress()` is declared in the
missing header; per the spec, the head of `waiting_commit` advances only if
both `pending_apply` and `pending_commit` are empty, so a write is in
progress while either peer set is non-empty. -/
def write_in_progress (op : RMWOp) : Bool :=
  decide (op.pending_apply ≠ ∅) || decide (op.pending_commit ≠ ∅)

/-- The dummy transaction-empty op pushed by `try_finish_rmw` to force a
rollforward (struct `ECDummyOp`); its `pg_committed_to` is the finished op's
version. -/
def dummy_rollforward_op (op : RMWOp) (new_tid : Nat) : RMWOp :=
  { tid := new_tid
    reqid := op.reqid
    version := 0
    pg_committed_to := op.version
    pending_apply := ∅
    pending_commit := ∅
    will_write := []
    remote_read_outstanding := false
    using_cache := false }

/-- Shallow embedding of `ECCommon::RMWPipeline::try_finish_rmw`.
`kraken` is `require_osd_release >= ceph_release_t::kraken`,
`can_rollback_to` is `get_parent()->get_log().get_can_rollback_to()`, and
`new_tid` the tid `get_parent()->get_tid()` would allocate for the dummy op.
Returns `none` when the source returns `false` (no progress, state
unchanged), otherwise the updated state. -/
def try_finish_rmw (st : RMWState) (kraken : Bool)
    (can_rollback_to new_tid : Nat) : Option RMWState :=
  match st.waiting_commit with
  | [] => none
  | op :: rest =>
    if write_in_progress op then none
    else
      let completed_to :=
        if op.pg_committed_to > st.completed_to then op.pg_committed_to
        else st.completed_to
      let committed_to :=
        if op.version > st.committed_to then op.version else st.committed_to
      let pushDummy := kraken && decide (op.version > can_rollback_to) &&
        st.waiting_reads.isEmpty && rest.isEmpty
      let waiting_reads :=
        if pushDummy then st.waiting_reads ++ [dummy_rollforward_op op new_tid]
        else st.waiting_reads
      let tids0 :=
        if pushDummy then st.tid_to_op ++ [new_tid] else st.tid_to_op
      let tids := tids0.erase op.tid
      let pipeline_valid :=
        if waiting_reads.isEmpty && rest.isEmpty then true
        else st.pipeline_valid
      some { st with
        waiting_commit := rest
        waiting_reads := waiting_reads
        tid_to_op := tids
        completed_to := completed_to
        committed_to := committed_to
        pipeline_valid := pipeline_valid }

/-- Shallow embedding of `ECCommon::RMWPipeline::try_reads_to_commit`, up to
the write-set verification.  `generate` abstracts the virtual
`Op::generate_transactions`, returning the per-object interval sets of the
`written` extent maps (`written_set` in the source); `acting` is the
acting-recovery-backfill shard set inserted into `pending_apply` and
`pending_commit`.  `Except.error ()` models the fatal
`ceph_assert(written_set == op->plan.will_write)` abort; `.ok (st, b)`
models a normal return of `b` with new state `st`. -/
def try_reads_to_commit (st : RMWState)
    (generate : RMWOp → List (Nat × Finset Nat)) (acting : Finset Nat) :
    Except Unit (RMWState × Bool) :=
  match st.waiting_reads with
  | [] => .ok (st, false)
  | op :: rest =>
    if op.remote_read_outstanding then .ok (st, false)
    else
      let written_set := generate op
      if written_set = op.will_write then
        let op' := { op with pending_apply := acting, pending_commit := acting }
        .ok ({ st with
          waiting_reads := rest
          waiting_commit := st.waiting_commit ++ [op'] }, true)
      else .error ()

/-- A concrete finished RMW op (empty peer sets). -/
def finishedOp : RMWOp :=
  { tid := 1, reqid := 1, version := 3, pg_committed_to := 2,
    pending_apply := ∅, pending_commit := ∅, will_write := [],
    remote_read_outstanding := false, using_cache := false }

/-- A concrete RMW op with a write still in flight on peer shard 4. -/
def busyOp : RMWOp :=
  { tid := 1, reqid := 1, version := 3, pg_committed_to := 2,
    pending_apply := ∅, pending_commit := {4}, will_write := [],
    remote_read_outstanding := false, using_cache := false }

/-- A concrete RMW op ready to commit, with a one-object write plan. -/
def readyOp : RMWOp :=
  { tid := 1, reqid := 1, version := 1, pg_committed_to := 0,
    pending_apply := ∅, pending_commit := ∅,
    will_write := [(0, Finset.Ico 0 4)],
    remote_read_outstanding := false, using_cache := true }

/-- Concrete pipeline state used against the original C3 claim:
`waiting_state` holds a blocked op, `waiting_commit` holds one finished op
(empty peer sets), and the pipeline cache state is invalid. -/
def c3State : RMWState :=
  { waiting_state := [{ finishedOp with tid := 2, reqid := 2, version := 7 }],
    waiting_reads := [],
    waiting_commit := [finishedOp],
    tid_to_op := [1, 2],
    pipeline_valid := false,
    completed_to := 0,
    committed_to := 0 }

/-- Concrete pipeline state whose `waiting_commit` head is `busyOp`. -/
def c3BusyState : RMWState :=
  { waiting_state := [], waiting_reads := [], waiting_commit := [busyOp],
    tid_to_op := [1], pipeline_valid := false,
    completed_to := 0, committed_to := 0 }

/-- Concrete pipeline state whose `waiting_reads` head is `readyOp`. -/
def c7State : RMWState :=
  { waiting_state := [], waiting_reads := [readyOp], waiting_commit := [],
    tid_to_op := [1], pipeline_valid := true,
    completed_to := 0, committed_to := 0 }

/-! ## Shard extent map RO-range bookkeeping (ECUtil::shard_extent_map_t) -/

/-- `shard_extent_map_t::invalid_offset = std::numeric_limits<uint64_t>::max()`. -/
def invalid_offset : Nat := 2 ^ 64 - 1

/-- The observable part of `ECUtil::shard_extent_map_t` for the RO-range
claims: per-shard footprints (the interval set of each shard's extent map;
the source keeps no empty shard entries, so absent shards are `∅`) together
with the tracked RO range. -/
structure sem_t where
  maps : Nat → Finset Nat
  ro_start : Nat
  ro_end : Nat

/-- `shard_extent_map_t::empty()`: `ro_end == invalid_offset`. -/
def sem_empty (m : sem_t) : Bool := m.ro_end == invalid_offset

/-- `shard_extent_map_t(sinfo)`: no extents, invalid RO range. -/
def sem_new : sem_t :=
  { maps := fun _ => ∅, ro_start := invalid_offset, ro_end := invalid_offset }

/-- Shallow embedding of the five-argument
`shard_extent_map_t::insert_in_shard(shard, off, bl, new_start, new_end)`:
insert a buffer of length `len` at `off` on `shard` and widen the RO range
with the caller-supplied bounds. -/
def insert_in_shard (m : sem_t) (shard off len new_start new_end : Nat) :
    sem_t :=
  if len = 0 then m
  else
    { maps := fun s =>
        if s = shard then m.maps s ∪ Finset.Ico off (off + len) else m.maps s
      ro_start :=
        if sem_empty m || decide (new_start < m.ro_start) then new_start
        else m.ro_start
      ro_end :=
        if sem_empty m || decide (new_end > m.ro_end) then new_end
        else m.ro_end }

/-- Shallow embedding of `shard_extent_map_t::insert(other)`: per-shard
union of the extent maps, then `ro_start = min(ro_start, other.ro_start)`
and `ro_end = max(ro_end, other.ro_end)` exactly as in the source (with no
special treatment of the `invalid_offset` sentinel). -/
def sem_insert (a other : sem_t) : sem_t :=
  { maps := fun s => a.maps s ∪ other.maps s
    ro_start := min a.ro_start other.ro_start
    ro_end := max a.ro_end other.ro_end }

/-- Shallow embedding of
`shard_extent_map_t::contains(map<int, extent_set> const&)` under the
no-empty-entries discipline: every requested shard's extents must be present. -/
def sem_contains (a : sem_t) (other : Nat → Finset Nat) : Prop :=
  ∀ s, other s ⊆ a.maps s

/-- The single-byte map used against C6: one byte at RO offset 0 (raw shard
0, shard offset 0), built with `insert_in_shard` the way
`ro_range_to_shards` populates a map. -/
def c6B : sem_t := insert_in_shard sem_new 0 0 1 0 1

/-! ## mini_flat_map -/

/-- `size_t` → `int8_t` conversion (modular, per C++20). -/
def toI8 (n : Nat) : Int :=
  if n % 256 < 128 then ((n % 256 : Nat) : Int) else ((n % 256 : Nat) : Int) - 256

/-- `int8_t` → `size_t` conversion (modular). -/
def toSizeT (i : Int) : Nat := (i % (2 ^ 64 : Int)).toNat

/-- `int8_t` → `unsigned int` conversion (modular), as in
`mini_flat_map::unsigned_cast`. -/
def toU32 (i : Int) : Nat := (i % (2 ^ 32 : Int)).toNat

/-- `mini_flat_map<Key, T, int8_t>` with `T = Nat`: the vector of optionals
and the separately tracked `_size` (a `size_t`). -/
structure mfm where
  data : List (Option Nat)
  sz : Nat
deriving DecidableEq

/-- `mini_flat_map::contains`: `unsigned_cast(key) < data.size() &&
data.at(unsigned_cast(key))`. -/
def mfm_contains (m : mfm) (k : Nat) : Bool :=
  let i := toU32 (toI8 k)
  decide (i < m.data.length) && (m.data.getD i none).isSome

/-- `mini_flat_map(size_t max_size)`: `max_size` empty optionals, size 0. -/
def mfm_new (max_size : Nat) : mfm :=
  { data := List.replicate max_size none, sz := 0 }

/-- `mini_flat_map::emplace(k, v)`: insert if absent, bumping `_size`. -/
def mfm_emplace (m : mfm) (k : Nat) (v : Nat) : mfm × Bool :=
  if mfm_contains m k then (m, false)
  else ({ data := m.data.set (toU32 (toI8 k)) (some v), sz := m.sz + 1 }, true)

/-- `mini_flat_map::erase(k)`: reset the optional and decrement `_size`. -/
def mfm_erase (m : mfm) (k : Nat) : mfm × Nat :=
  if mfm_contains m k then
    ({ data := m.data.set (toU32 (toI8 k)) none, sz := m.sz - 1 }, 1)
  else (m, 0)

/-- Shallow embedding of `mini_flat_map::swap`: the data vectors are
exchanged, but the sizes are exchanged through a temporary of the key-index
type `I = int8_t` (`I tmp = _size; _size = other._size; other._size = tmp;`),
so `other`'s new size is `(size_t)(int8_t)_size`. -/
def mfm_swap (a b : mfm) : mfm × mfm :=
  let tmp : Int := toI8 a.sz
  ({ data := b.data, sz := b.sz }, { data := a.data, sz := toSizeT tmp })

/-- A full map over keys 0..127 (`max_size` 128), built by 128 `emplace`
calls; its `_size` is 128. -/
def mfm_full128 : mfm :=
  (List.range 128).foldl (fun m k => (mfm_emplace m k 0).1) (mfm_new 128)

/-- Number of keys the map reports as contained (keys of `int8_t` type are
the 128 non-negative values 0..127). -/
def mfm_contained_count (m : mfm) : Nat :=
  ((List.range 128).filter (fun k => mfm_contains m k)).length

/-! ## Extent cache per-object state (ECExtentCache::Object)

The shard space is fixed to the pool's `k + m` shards, modelled as `Fin n`.
A `std::map<int, extent_set>` that the code keeps free of empty entries is
modelled as a total function `Fin n → Finset Nat` (absent shard = `∅`), so
map-level emptiness coincides with every entry being empty. -/

/-- `ECExtentCache::Op`, restricted to the fields `Object::request` and
`Object::cache_maybe_ready` read or write: the optional read set, the write
set, and the completion flag.  `id` identifies the op in emitted
`cache_ready` events; the `result` intersection passed to the callback is
not tracked (C2 is about when the callback fires). -/
structure CacheOp (n : Nat) where
  id : Nat
  reads : Option (Fin n → Finset Nat)
  writes : Fin n → Finset Nat
  complete : Bool

/-- `ECExtentCache::Object`: footprint of the cached `shard_extent_map_t`
plus the `requesting` / `reading` / `writing` shard-extent maps and the op
wait queue. -/
structure ObjState (n : Nat) where
  cache : Fin n → Finset Nat
  requesting : Fin n → Finset Nat
  reading : Fin n → Finset Nat
  writing : Fin n → Finset Nat
  waiting_ops : List (CacheOp n)

/-- The read set of an op as a total map (`reads_of op = ∅` everywhere when
`op.reads` is `nullopt`). -/
def reads_of {n : Nat} (op : CacheOp n) : Fin n → Finset Nat :=
  match op.reads with
  | none => fun _ => ∅
  | some r => r

/-- `shard_extent_map_t::contains(optional<map<int, extent_set>>)`:
`nullopt` is trivially contained; otherwise every requested shard's extents
must be present in the cache (under the no-empty-entries discipline). -/
def cache_contains {n : Nat} (cache : Fin n → Finset Nat)
    (reads : Option (Fin n → Finset Nat)) : Bool :=
  match reads with
  | none => true
  | some r => decide (∀ s, r s ⊆ cache s)

/-- `ECExtentCache::Object::cache_maybe_ready`: if the op at the head of
`waiting_ops` has its reads contained in the cache, mark it complete and
emit its `cache_ready` event (the source re-fires even for an
already-complete head; no completeness check is made). -/
def cache_maybe_ready {n : Nat} (st : ObjState n) : ObjState n × List Nat :=
  match st.waiting_ops with
  | [] => (st, [])
  | op :: rest =>
    if cache_contains st.cache op.reads then
      ({ st with waiting_ops := { op with complete := true } :: rest },
       [op.id])
    else (st, [])

/-- One iteration of the `for (auto &&[shard, eset]: *(op->reads))` loop of
`ECExtentCache::Object::request`: compute the still-missing extents by
subtracting the cache content, `reading` and `writing`, record the op's
writes for the shard into `writing`, and merge any non-empty remainder into
`requesting`.  The loop body only runs for shards present in the reads map,
i.e. (no-empty-entries) with `reads s ≠ ∅`. -/
def request_step {n : Nat} (op : CacheOp n) (reads : Fin n → Finset Nat)
    (acc : ObjState n) (s : Fin n) : ObjState n :=
  if reads s = ∅ then acc
  else
    let request := ((reads s \ acc.cache s) \ acc.reading s) \ acc.writing s
    let acc1 := { acc with
      writing := Function.update acc.writing s (acc.writing s ∪ op.writes s) }
    if request = ∅ then acc1
    else { acc1 with
      requesting :=
        Function.update acc1.requesting s (acc1.requesting s ∪ request) }

/-- The read-subtraction loop of `ECExtentCache::Object::request` (skipped
entirely when `op->reads` is `nullopt`). -/
def request_merge {n : Nat} (st : ObjState n) (op : CacheOp n) : ObjState n :=
  match op.reads with
  | none => st
  | some reads => (List.finRange n).foldl (request_step op reads) st

/-- `ECExtentCache::Object::send_reads`: if no read is in flight and
`requesting` is non-empty, swap `requesting` into `reading` and fire the
backend read (the returned flag). -/
def send_reads {n : Nat} (st : ObjState n) : ObjState n × Bool :=
  if !decide (∀ s, st.reading s = ∅) || decide (∀ s, st.requesting s = ∅) then
    (st, false)
  else
    ({ st with reading := st.requesting, requesting := fun _ => ∅ }, true)

/-- Shallow embedding of `ECExtentCache::Object::request`: run the
read-subtraction loop, enqueue the op, then `cache_maybe_ready` and
`send_reads`.  Returns the new state, the `cache_ready` events fired, and
whether a backend read was dispatched. -/
def object_request {n : Nat} (st : ObjState n) (op : CacheOp n) :
    ObjState n × List Nat × Bool :=
  let st1 := request_merge st op
  let st2 := { st1 with waiting_ops := st1.waiting_ops ++ [op] }
  let p3 := cache_maybe_ready st2
  let p4 := send_reads p3.1
  (p4.1, p3.2, p4.2)

/-- Op A of the C2 counterexample: reads RO byte 1 (not cached). -/
def c2OpA : CacheOp 1 :=
  { id := 0, reads := some (fun _ => Finset.Ico 1 2), writes := fun _ => ∅,
    complete := false }

/-- Op B of the C2 counterexample: reads RO byte 0 (fully cached). -/
def c2OpB : CacheOp 1 :=
  { id := 1, reads := some (fun _ => Finset.Ico 0 1), writes := fun _ => ∅,
    complete := false }

/-- The C2 counterexample object state: byte 0 cached, op A waiting with its
read of byte 1 in flight. -/
def c2St : ObjState 1 :=
  { cache := fun _ => Finset.Ico 0 1
    requesting := fun _ => ∅
    reading := fun _ => Finset.Ico 1 2
    writing := fun _ => ∅
    waiting_ops := [c2OpA] }

/-- The same object state with an empty wait queue and no read in flight
(for the C2 witness: op B is then immediately signalled). -/
def c2StIdle : ObjState 1 :=
  { cache := fun _ => Finset.Ico 0 1
    requesting := fun _ => ∅
    reading := fun _ => ∅
    writing := fun _ => ∅
    waiting_ops := [] }

/-! ## Extent cache LRU (ECExtentCache::Lru)

`hobject_t` is modelled as `Nat`, with `0` standing for the
default-constructed `hobject_t` (real objects use other values); an
`Address` is an `(oid, offset)` pair, default `(0, 0)`.  Each object's
cached `shard_extent_map_t` is abstracted to the byte count it holds per
chunk-aligned stripe offset, which is all `Object::free` and the cache size
accounting observe. -/

/-- `ECExtentCache::Line`. -/
structure CLine where
  in_lru : Bool
  ref_count : Nat
  address : Nat × Nat
deriving DecidableEq, Repr

/-- The default-constructed `Line` produced by
`unordered_map::operator[]` (value-initialisation): no fields are
subsequently assigned by `Lru::pin` except `in_lru` and `ref_count`; in
particular `address` stays `(0, 0)`. -/
def defaultLine : CLine := { in_lru := false, ref_count := 0, address := (0, 0) }

/-- `ECExtentCache::Lru`: the `lines` map, the `lru` list of `Line`
copies (`std::list<Line>`), sizes, and the per-object resident byte counts
by stripe offset. -/
structure CacheState where
  lines : List ((Nat × Nat) × CLine)
  lru : List CLine
  max_size : Nat
  size : Nat
  objects : List (Nat × List (Nat × Nat))
deriving DecidableEq, Repr

/-- Association-list lookup (`unordered_map` / `std::map` find). -/
def alookup {α β : Type} [DecidableEq α] (xs : List (α × β)) (k : α) :
    Option β :=
  (xs.find? (fun p => p.1 = k)).map Prod.snd

/-- Association-list update-or-insert (`operator[]` assignment). -/
def aset {α β : Type} [DecidableEq α] (xs : List (α × β)) (k : α) (v : β) :
    List (α × β) :=
  if (xs.find? (fun p => p.1 = k)).isSome then
    xs.map (fun p => if p.1 = k then (k, v) else p)
  else xs ++ [(k, v)]

/-- Association-list erase. -/
def aerase {α β : Type} [DecidableEq α] (xs : List (α × β)) (k : α) :
    List (α × β) :=
  xs.filter (fun p => p.1 ≠ k)

/-- One inner iteration of `ECExtentCache::Lru::pin`: `operator[]` the line
at `(oid, to_pin)` (value-initialising it if absent — its `address` member
is never assigned), remove it from the LRU list if `in_lru`
(`std::list::remove` erases all equal elements), clear `in_lru` and bump
`ref_count`. -/
def lru_pin_one (st : CacheState) (oid to_pin : Nat) : CacheState :=
  let key := (oid, to_pin)
  let l := (alookup st.lines key).getD defaultLine
  let st1 :=
    if l.in_lru then { st with lru := st.lru.filter (fun x => x ≠ l) } else st
  let l' := { l with in_lru := false, ref_count := l.ref_count + 1 }
  { st1 with lines := aset st1.lines key l' }

/-- `ECExtentCache::Object::free(l)` together with the `objects` map
maintenance: erase the line's stripe from the owning object's cache and
return the byte count freed; drop the object when its cache becomes empty.
Returns `none` when the owning object is not in `objects`
(`objects.at` would throw). -/
def obj_free (objs : List (Nat × List (Nat × Nat))) (oid off : Nat) :
    Option (List (Nat × List (Nat × Nat)) × Nat) :=
  match alookup objs oid with
  | none => none
  | some entries =>
    let freed := (alookup entries off).getD 0
    let entries' := aerase entries off
    some (if entries' = [] then aerase objs oid else aset objs oid entries',
          freed)

/-- The `while (max_size < size && !lru.empty())` loop of
`ECExtentCache::Lru::free_maybe`, recursing on the LRU list: free the stripe
of the LRU head's `address` (the copied `Line` value), pop it and erase it
from `lines`.  `Except.error ()` models the `std::out_of_range` thrown by
`objects.at` when no object with the head's recorded oid exists. -/
def free_loop (max_size : Nat) :
    List CLine → Nat → List ((Nat × Nat) × CLine) →
    List (Nat × List (Nat × Nat)) →
    Except Unit (List CLine × Nat × List ((Nat × Nat) × CLine) ×
      List (Nat × List (Nat × Nat)))
  | [], size, lines, objs => .ok ([], size, lines, objs)
  | l :: rest, size, lines, objs =>
    if max_size < size then
      match obj_free objs l.address.1 l.address.2 with
      | none => .error ()
      | some (objs', freed) =>
        free_loop max_size rest (size - freed) (aerase lines l.address) objs'
    else .ok (l :: rest, size, lines, objs)

/-- `ECExtentCache::Lru::free_maybe`. -/
def free_maybe (st : CacheState) : Except Unit CacheState :=
  match free_loop st.max_size st.lru st.size st.lines st.objects with
  | .error e => .error e
  | .ok (lru', size', lines', objs') =>
    .ok { st with lru := lru', size := size', lines := lines', objects := objs' }

/-- One inner iteration of `ECExtentCache::Lru::complete`: look up the line
(`lines.at` throws when absent), assert `ref_count` non-zero, decrement it,
and on reaching zero set `in_lru` and append a copy to the LRU list. -/
def lru_complete_one (st : CacheState) (oid to_pin : Nat) :
    Except Unit CacheState :=
  match alookup st.lines (oid, to_pin) with
  | none => .error ()
  | some l =>
    if l.ref_count = 0 then .error ()
    else
      let l' := { l with ref_count := l.ref_count - 1 }
      if l'.ref_count = 0 then
        let l'' := { l' with in_lru := true }
        .ok { st with
          lines := aset st.lines (oid, to_pin) l''
          lru := st.lru ++ [l''] }
      else .ok { st with lines := aset st.lines (oid, to_pin) l' }

/-- `ECExtentCache::Lru::complete`: unpin every line the op's (chunk-aligned)
writes cover, then `free_maybe`. -/
def lru_complete (st : CacheState) (oid : Nat) (offs : List Nat) :
    Except Unit CacheState :=
  match offs.foldlM (fun acc off => lru_complete_one acc oid off) st with
  | .error e => .error e
  | .ok st' => free_maybe st'

/-- Data arrival (`Lru::read_done` / `Lru::write_done` →
`Object::insert`): the object's cache gains `bytes` bytes on the stripe at
`off` and the cache size grows accordingly; no eviction is triggered here. -/
def insert_bytes (st : CacheState) (oid off bytes : Nat) : CacheState :=
  let entries := (alookup st.objects oid).getD []
  let prev := (alookup entries off).getD 0
  { st with
    size := st.size + bytes
    objects := aset st.objects oid (aset entries off (prev + bytes)) }

/-- Initial C4 state: a cache with `max_size = 0` and object 1 registered by
`Lru::request` (`objects.emplace(oid, ...)`). -/
def c4St0 : CacheState :=
  { lines := [], lru := [], max_size := 0, size := 0, objects := [(1, [])] }

/-- The C4 trace: an op pins line `(1, 0)` (a write over the first chunk of
object 1), its `write_done` lands 4 bytes there, and `complete` unpins the
line and runs `free_maybe`, which must now evict. -/
def c4Trace : Except Unit CacheState :=
  lru_complete (insert_bytes (lru_pin_one c4St0 1 0) 1 0 4) 1 [0]

/-! ## bitset_set

The word array is a `List Nat`; each word holds a `uint64_t`, so every value
the code stores is reduced `% 2^64` where the C++ expression would wrap
(`-1UL` is `2^64 - 1`).  `words[i] op= v` on an index one past the end —
which the code reaches benignly with a zero mask when a range ends exactly
at `N` — is a no-op, matching `List.set` out of range. -/

/-- `bitset_set::contains(k)`: `words[k / 64] & (1UL << (k % 64))`
(non-zero test). -/
def bs_contains (words : List Nat) (x : Nat) : Bool :=
  decide ((words.getD (x / 64) 0) &&& (1 <<< (x % 64)) ≠ 0)

/-- The `while (++start_word < end_word) words[start_word] = v;` loop shared
by `insert_range` (`v = -1UL`) and `erase_range` (`v = 0`): assigns `v` to
words `sw+1 .. ew-1`. -/
def fill_words (ws : List Nat) (sw ew v : Nat) : List Nat :=
  (List.range (ew - (sw + 1))).foldl (fun acc t => acc.set (sw + 1 + t) v) ws

/-- Shallow embedding of `bitset_set::insert_range(start, length)`. -/
def insert_range (words : List Nat) (start len : Nat) : List Nat :=
  if start / 64 = (start + len) / 64 then
    words.set (start / 64)
      ((words.getD (start / 64) 0) |||
        ((((1 <<< len) - 1) <<< (start % 64)) % 2 ^ 64))
  else
    let w1 := words.set (start / 64)
      ((words.getD (start / 64) 0) |||
        (((2 ^ 64 - 1) <<< (start % 64)) % 2 ^ 64))
    let w2 := fill_words w1 (start / 64) ((start + len) / 64) (2 ^ 64 - 1)
    w2.set ((start + len) / 64)
      ((w2.getD ((start + len) / 64) 0) ||| ((1 <<< ((start + len) % 64)) - 1))

/-- Shallow embedding of `bitset_set::erase_range(start, length)`
(`w &= ~mask` is `w &&& ((2^64 - 1) ^^^ mask)` on 64-bit words). -/
def erase_range (words : List Nat) (start len : Nat) : List Nat :=
  if start / 64 = (start + len) / 64 then
    words.set (start / 64)
      ((words.getD (start / 64) 0) &&&
        ((2 ^ 64 - 1) ^^^ ((((1 <<< len) - 1) <<< (start % 64)) % 2 ^ 64)))
  else
    let w1 := words.set (start / 64)
      ((words.getD (start / 64) 0) &&&
        ((2 ^ 64 - 1) ^^^ (((2 ^ 64 - 1) <<< (start % 64)) % 2 ^ 64)))
    let w2 := fill_words w1 (start / 64) ((start + len) / 64) 0
    w2.set ((start + len) / 64)
      ((w2.getD ((start + len) / 64) 0) &&&
        ((2 ^ 64 - 1) ^^^ ((1 <<< ((start + len) % 64)) - 1)))

/-! ## Stripe geometry

`ECUtil::stripe_info_t::ro_range_to_shards` and
`ECCommon::ReadPipeline::get_min_want_to_read_shards` run the identical
shard-winding loop (the latter inlines the same arithmetic); the embedding
below captures the per-iteration `(shard, offset, length)` extent insertions
of that loop.  `stripe_width = k * chunk_size` (asserted by the
`stripe_info_t` constructors). -/

/-- `chunk_mapping.size() > raw_shard ? chunk_mapping[raw_shard] :
raw_shard` — the source's guarded mapping lookup (the completed chunk
mapping is the identity beyond the supplied prefix). -/
def map_shard (mapping : List Nat) (raw : Nat) : Nat :=
  if h : raw < mapping.length then mapping.get ⟨raw, h⟩ else raw

/-- The `(shard, offset, length)` extent the loop body of
`ro_range_to_shards` / `get_min_want_to_read_shards` inserts for loop index
`i` (`C` is `chunk_size`, `k` the data chunk count, `[O, O+L)` the RO
range); uint64 subtraction is truncated, as in the source. -/
def ro_shard_extent (k C : Nat) (mapping : List Nat) (O L i : Nat) :
    Nat × Nat × Nat :=
  let S := k * C
  let begin_div := O / S
  let end_div := (O + L + S - 1) / S - 1
  let start := begin_div * C
  let endv := end_div * C
  let start_shard := (O - begin_div * S) / C
  let chunk_count := (O + L + C - 1) / C - O / C
  let last_shard := (start_shard + chunk_count - 1) % k
  let raw_shard := if i ≥ k then i - k else i
  let start_adj :=
    if raw_shard < start_shard then C
    else if raw_shard = start_shard then O % C
    else 0
  let end_adj :=
    if raw_shard < last_shard then C
    else if raw_shard = last_shard then (O + L - 1) % C + 1
    else 0
  (map_shard mapping raw_shard, start + start_adj,
    endv + end_adj - start - start_adj)

/-- Shallow embedding of the extent-emitting loop of
`ECUtil::stripe_info_t::ro_range_to_shards(ro_offset = O, ro_size = L)` (and
of `ECCommon::ReadPipeline::get_min_want_to_read_shards`): the ordered list
of `(shard, offset, length)` insertions made into the per-shard extent
sets, one per loop index `i ∈ [start_shard, end_shard)`; `L = 0` returns
immediately with no insertions. -/
def ro_range_to_shards (k C : Nat) (mapping : List Nat) (O L : Nat) :
    List (Nat × Nat × Nat) :=
  if L = 0 then []
  else
    let S := k * C
    let begin_div := O / S
    let start_shard := (O - begin_div * S) / C
    let chunk_count := (O + L + C - 1) / C - O / C
    let end_shard := start_shard + min chunk_count k
    (List.range (end_shard - start_shard)).map
      (fun j => ro_shard_extent k C mapping O L (start_shard + j))

/-- Claim C1's description of one emitted extent, following the spec's
words: for raw shard `r` (taken modulo `k` for the winding wrap, both for
the physical-shard mapping and the first/last comparisons), the interval
`[start + start_adj, end + end_adj)` on physical shard `mapping[r mod k]`,
with `start_adj = O mod C` on the first shard, `C` for shards before the
first, `0` otherwise, and `end_adj = ((O+L-1) mod C) + 1` on the last
shard, `C` for shards before the last, `0` otherwise.  Returned as
`(shard, lo, hi)` interval endpoints. -/
def spec_shard_extent (k C : Nat) (mapping : List Nat) (O L r : Nat) :
    Nat × Nat × Nat :=
  let S := k * C
  let begin_div := O / S
  let end_div := (O + L + S - 1) / S - 1
  let start := begin_div * C
  let endv := end_div * C
  let first := (O - begin_div * S) / C
  let chunk_count := (O + L + C - 1) / C - O / C
  let last := (first + chunk_count - 1) % k
  let rm := r % k
  let start_adj :=
    if rm = first then O % C else if rm < first then C else 0
  let end_adj :=
    if rm = last then (O + L - 1) % C + 1 else if rm < last then C else 0
  (map_shard mapping rm, start + start_adj, endv + end_adj)

/-- The claim-side emission: one extent for each raw shard `r` in
`[first, first + min(chunk_count, k))`; nothing when `L = 0`. -/
def spec_shard_extents (k C : Nat) (mapping : List Nat) (O L : Nat) :
    List (Nat × Nat × Nat) :=
  if L = 0 then []
  else
    let S := k * C
    let first := (O - (O / S) * S) / C
    let chunk_count := (O + L + C - 1) / C - O / C
    (List.range (min chunk_count k)).map
      (fun j => spec_shard_extent k C mapping O L (first + j))

/-! ## Shard extent map byte contents

For the round-trip claim the byte contents matter.  A `bufferlist` is a
`List Nat` of bytes; a `shard_extent_map_t`'s contents are the partial map
`SMap : shard → shard offset → byte`.  Modelled from the spec: the
underlying `interval_map` container is not among the sources; per the
spec's invariants ("buffer length equals interval length; for any point
covered on shard s, exactly one buffer owns that byte") it is modelled
pointwise, with a later insert owning any overlapped byte, and a range is
contained exactly when every byte of it is present (the container coalesces
adjacent buffers, so `get_containing_range` finds a single range iff the
bytes are all present). -/

/-- A `bufferlist`. -/
abbrev Buf := List Nat

/-- The byte contents of a `shard_extent_map_t`. -/
abbrev SMap := Nat → Nat → Option Nat

/-- The empty map. -/
def smap_empty : SMap := fun _ _ => none

/-- Byte-level effect of `insert_in_shard(shard, off, bl, ...)`: a no-op
for an empty buffer, otherwise the buffer's bytes own `[off, off + |bl|)`
on `shard`. -/
def insert_in_shard_bytes (M : SMap) (shard off : Nat) (b : Buf) : SMap :=
  if b.length = 0 then M
  else fun s q =>
    if s = shard ∧ off ≤ q ∧ q < off + b.length then b.get? (q - off)
    else M s q

/-- The `while (bl_offset < bl->length())` loop of the buffer-splitting
branch of `ro_range_to_shards`: starting at `pos`, append
`substr(bl, pos, min(C, |bl| - pos))` and advance by `stride`, while `pos`
is inside the buffer.  `fuel` bounds the iteration count; callers pass
`fuel = |bl|`, which suffices since each iteration advances `pos` by
`stride ≥ 1`. -/
def collect_chunks (C stride : Nat) (bl : Buf) : Nat → Nat → Buf
  | 0, _ => []
  | fuel + 1, pos =>
    if pos < bl.length then
      (bl.drop pos).take (min C (bl.length - pos)) ++
        collect_chunks C stride bl fuel (pos + stride)
    else []

/-- One iteration of the shard-winding loop of `ro_range_to_shards` in its
buffer-splitting mode (`bl` and a `shard_extent_map` supplied): build
`shard_bl` from the first partial chunk (when `start_adj != chunk_size`)
followed by every `chunk_size`-stride slice, insert it at
`start + start_adj` on the mapped shard, and advance
`buffer_shard_start_offset`.  (The extent-set outputs of the same loop are
embedded separately as `ro_range_to_shards`.) -/
def smap_visit (k C : Nat) (mapping : List Nat) (O L : Nat) (bl : Buf)
    (st : SMap × Nat) (j : Nat) : SMap × Nat :=
  let S := k * C
  let begin_div := O / S
  let start := begin_div * C
  let start_shard := (O - begin_div * S) / C
  let i := start_shard + j
  let raw_shard := if i ≥ k then i - k else i
  let start_adj :=
    if raw_shard < start_shard then C
    else if raw_shard = start_shard then O % C
    else 0
  let shard := map_shard mapping raw_shard
  let off := start + start_adj
  let B := st.2
  let shard_bl :=
    if C ≠ start_adj then
      (bl.drop B).take (min (bl.length - B) (C - start_adj)) ++
        collect_chunks C (k * C) bl bl.length
          (B + (C - start_adj) + (k - 1) * C)
    else collect_chunks C (k * C) bl bl.length B
  let B' := if C ≠ start_adj then B + (C - start_adj) else B + C
  (insert_in_shard_bytes st.1 shard off shard_bl, B')

/-- The buffer-splitting mode of
`ECUtil::stripe_info_t::ro_range_to_shards(ro_offset = O, ro_size = L, bl,
shard_extent_map)` (as used by `ro_range_to_shard_extent_map`): distribute
`bl`'s bytes over the shards of the window.  Callers pass `L = |bl|`. -/
def ro_range_to_smap (k C : Nat) (mapping : List Nat) (O L : Nat) (bl : Buf)
    (M : SMap) : SMap :=
  if L = 0 then M
  else
    let S := k * C
    let begin_div := O / S
    let start_shard := (O - begin_div * S) / C
    let chunk_count := (O + L + C - 1) / C - O / C
    let end_shard := start_shard + min chunk_count k
    ((List.range (end_shard - start_shard)).foldl
      (smap_visit k C mapping O L bl) (M, 0)).1

/-- `shard_extent_map_t::get_buffer(shard, offset, length, bl, zero_pad =
false)`: appends the bytes when the range is fully present, and is the
`ceph_assert` abort (`none`) otherwise. -/
def get_buffer_bytes (M : SMap) (shard off len : Nat) : Option Buf :=
  if (List.range len).all (fun t => (M shard (off + t)).isSome) then
    some ((List.range len).map (fun t => (M shard (off + t)).getD 0))
  else none

/-- One window of `shard_extent_map_t::get_ro_buffer`'s loop: compute the
window's sub-chunk extent on the mapped shard of the cycling raw shard,
read it with `get_buffer` (`zero_pad = false`), and append. -/
def ro_window_step (k C : Nat) (mapping : List Nat) (M : SMap)
    (ro_off ro_len off0 : Nat) (st : Nat × Option Buf) (t : Nat) :
    Nat × Option Buf :=
  let raw := if st.1 = k then 0 else st.1
  let chunk_offset := off0 + t * C
  let sub_chunk_offset := max chunk_offset ro_off
  let sub_chunk_shard_offset :=
    (chunk_offset / (k * C)) * C + sub_chunk_offset - chunk_offset
  let sub_chunk_len :=
    min (ro_off + ro_len) (chunk_offset + C) - sub_chunk_offset
  let piece := get_buffer_bytes M (map_shard mapping raw)
    sub_chunk_shard_offset sub_chunk_len
  (raw + 1,
    match st.2, piece with
    | some accb, some p => some (accb ++ p)
    | _, _ => none)

/-- Shallow embedding of `shard_extent_map_t::get_ro_buffer(ro_offset,
ro_length)`: `offset_len_to_chunk_bounds` aligns the range, then the loop
walks the chunk-sized windows, cycling the raw shard and appending each
window's sub-chunk bytes from the mapped shard. -/
def get_ro_buffer (k C : Nat) (mapping : List Nat) (M : SMap)
    (ro_off ro_len : Nat) : Option Buf :=
  let off0 := ro_off - ro_off % C
  let tmp := (ro_off - off0) + ro_len
  let len0 := if tmp % C ≠ 0 then tmp - tmp % C + C else tmp
  ((List.range (len0 / C)).foldl
    (ro_window_step k C mapping M ro_off ro_len off0)
    ((ro_off / C) % k, some [])).2

/-- `shard_extent_map_t::calc_ro_offset(raw_shard, shard_offset)`. -/
def calc_ro_offset (k C r q : Nat) : Nat :=
  (q / C) * (k * C) + r * C + q % C

/-- A shard-extent map populated by a sequence of RO-range insertions
(`ro_range_to_shard_extent_map` calls), each over `[O, O + |bl|)`. -/
def smap_of_inserts (k C : Nat) (mapping : List Nat)
    (inserts : List (Nat × Buf)) : SMap :=
  inserts.foldl
    (fun M p => ro_range_to_smap k C mapping p.1 p.2.length p.2 M)
    smap_empty

/-- The RO-space bytes those insertions wrote (later insertions own
overlapped bytes). -/
def ro_content (inserts : List (Nat × Buf)) : Nat → Option Nat :=
  inserts.foldl
    (fun rc p q =>
      if p.1 ≤ q ∧ q < p.1 + p.2.length then p.2.get? (q - p.1) else rc q)
    (fun _ => none)

end ECProof

namespace ECProof

/-! ## Theorems -/

/-- Claim C8: on a registry miss with a present, non-empty `"hinfo_key"`
attribute blob, `get_hash_info` returns a null reference whenever the blob
fails to decode, and whenever the decoded record's `total_chunk_size`
differs from the known on-disk object size; when the decoded size matches,
a non-null reference to the decoded record is returned. -/
theorem get_hash_info_null_on_mismatch (create : Bool) (attr : List Nat)
    (size : Nat) (decodeBlob : List Nat → Option HashInfo) (cc : Nat)
    (hattr : attr.length > 0) :
    (decodeBlob attr = none →
      get_hash_info none create (some attr) size decodeBlob cc = none) ∧
    (∀ h, decodeBlob attr = some h → h.total_chunk_size ≠ size →
      get_hash_info none create (some attr) size decodeBlob cc = none) ∧
    (∀ h, decodeBlob attr = some h → h.total_chunk_size = size →
      get_hash_info none create (some attr) size decodeBlob cc = some h) := by
  refine ⟨?_, ?_, ?_⟩
  · intro hdec
    simp [get_hash_info, hattr, hdec]
  · intro h hdec hne
    simp [get_hash_info, hattr, hdec, hne]
  · intro h hdec heq
    simp [get_hash_info, hattr, hdec, heq]

/-- Witness for C8: a concrete mismatching record yields a null reference. -/
theorem get_hash_info_null_on_mismatch_witness :
    get_hash_info none false (some [1]) 3
      (fun _ => some { total_chunk_size := 5, cumulative_shard_hashes := [] })
      2 = none :=
  (get_hash_info_null_on_mismatch false [1] 3
      (fun _ => some { total_chunk_size := 5, cumulative_shard_hashes := [] })
      2 (by decide)).2.1
    { total_chunk_size := 5, cumulative_shard_hashes := [] } rfl (by decide)

/-- Claim C7: when `try_reads_to_commit` processes the head of
`waiting_reads` (no remote read outstanding), the transition succeeds with
the op moved to `waiting_commit` exactly when the extent sets actually
written by `generate_transactions` equal the op's planned `will_write`; any
mismatch is the fatal `ceph_assert` abort (`Except.error`), never a
recoverable result, and under the precondition that the transactions write
exactly the plan the abort branch is unreachable. -/
theorem try_reads_to_commit_verifies_plan (st : RMWState)
    (generate : RMWOp → List (Nat × Finset Nat)) (acting : Finset Nat)
    (op : RMWOp) (rest : List RMWOp)
    (hq : st.waiting_reads = op :: rest)
    (hrip : op.remote_read_outstanding = false) :
    (generate op = op.will_write →
      try_reads_to_commit st generate acting =
        .ok ({ st with
          waiting_reads := rest
          waiting_commit := st.waiting_commit ++
            [{ op with pending_apply := acting, pending_commit := acting }] },
          true)) ∧
    (generate op ≠ op.will_write →
      try_reads_to_commit st generate acting = .error ()) := by
  constructor
  · intro hgen
    simp [try_reads_to_commit, hq, hrip, hgen]
  · intro hgen
    simp [try_reads_to_commit, hq, hrip, hgen]

/-- Witness for C7: a concrete op whose generated write set matches the plan
commits successfully (no abort). -/
theorem try_reads_to_commit_verifies_plan_witness :
    try_reads_to_commit c7State (fun o => o.will_write) {0, 1, 2} ≠
      .error () := by
  have h := try_reads_to_commit_verifies_plan c7State
    (fun o => o.will_write) {0, 1, 2} readyOp [] rfl rfl
  rw [h.1 rfl]
  simp

/-- Counterexample for C3 as stated: from a reachable configuration with a
blocked op still in `waiting_state`, `try_finish_rmw` pops the finished head
of `waiting_commit` and resets `pipeline_state` to cache_valid even though
`waiting_state` is non-empty, contradicting the claim that the reset happens
exactly when all three queues are empty. -/
theorem try_finish_rmw_resets_despite_waiting_state :
    (try_finish_rmw c3State true 5 99).map
      (fun st' => (st'.pipeline_valid, st'.waiting_state.length)) =
      some (true, 1) ∧ c3State.pipeline_valid = false := by
  constructor
  · rfl
  · rfl

/-- Claim C3, amended: `try_finish_rmw` never removes the head op of
`waiting_commit` while either its `pending_apply` or its `pending_commit`
set is non-empty, and after an op finishes, `pipeline_state` is reset to
cache_valid exactly when `waiting_reads` and `waiting_commit` are empty
(`waiting_state` may still hold blocked ops). -/
theorem try_finish_rmw_guard_and_reset (st : RMWState) (kraken : Bool)
    (can_rollback_to new_tid : Nat) :
    (∀ op rest, st.waiting_commit = op :: rest →
      (op.pending_apply ≠ ∅ ∨ op.pending_commit ≠ ∅) →
      try_finish_rmw st kraken can_rollback_to new_tid = none) ∧
    (st.pipeline_valid = false →
      ∀ st', try_finish_rmw st kraken can_rollback_to new_tid = some st' →
        (st'.pipeline_valid = true ↔
          st'.waiting_reads = [] ∧ st'.waiting_commit = [])) := by
  constructor
  · intro op rest hq hbusy
    have hwip : write_in_progress op = true := by
      simp only [write_in_progress]
      rcases hbusy with h | h <;> simp [h]
    simp [try_finish_rmw, hq, hwip]
  · intro hpv st' hsome
    rcases hwc : st.waiting_commit with _ | ⟨op, rest⟩
    · simp [try_finish_rmw, hwc] at hsome
    · simp only [try_finish_rmw, hwc] at hsome
      by_cases hwip : write_in_progress op = true
      · simp [hwip] at hsome
      · simp only [Bool.not_eq_true] at hwip
        simp only [hwip, Bool.false_eq_true, if_false, Option.some.injEq] at hsome
        subst hsome
        simp only
        set wr := (if (kraken && decide (op.version > can_rollback_to) &&
            st.waiting_reads.isEmpty && rest.isEmpty) = true then
            st.waiting_reads ++ [dummy_rollforward_op op new_tid]
            else st.waiting_reads) with hwr
        by_cases hcond : (wr.isEmpty && rest.isEmpty) = true
        · simp only [Bool.and_eq_true, List.isEmpty_iff] at hcond
          simp [hcond.1, hcond.2]
        · rw [if_neg hcond, hpv]
          simp only [Bool.and_eq_true, List.isEmpty_iff] at hcond
          constructor
          · intro h; exact absurd h (by simp)
          · intro ⟨h1, h2⟩; exact absurd ⟨h1, h2⟩ hcond

/-- Witness for C3 (amended): a busy head (non-empty `pending_commit`) makes
`try_finish_rmw` a no-op. -/
theorem try_finish_rmw_guard_and_reset_witness :
    try_finish_rmw c3BusyState true 5 99 = none :=
  (try_finish_rmw_guard_and_reset c3BusyState true 5 99).1
    busyOp [] rfl (Or.inr (by decide))

/-- Counterexample for C6 as stated: inserting a non-empty map `B` (one byte
at RO offset 0, so span(B) = [0, 1)) into an empty map `A` leaves the
result's `ro_end` at `invalid_offset` (`max(invalid_offset, 1)`), not at the
end of span(A) ∪ span(B) = 1; the result even still reports `empty()`. -/
theorem sem_insert_empty_lhs_ro_range_bug :
    (sem_insert sem_new c6B).ro_end = invalid_offset ∧
    c6B.ro_start = 0 ∧ c6B.ro_end = 1 ∧
    (sem_insert sem_new c6B).ro_end ≠ 1 ∧
    sem_empty (sem_insert sem_new c6B) = true := by
  refine ⟨by decide, by decide, by decide, by decide, by decide⟩

/-- Per-field effect of one `Object::request` loop iteration. -/
theorem request_step_fields {n : Nat} (op : CacheOp n)
    (reads : Fin n → Finset Nat) (acc : ObjState n) (a : Fin n) :
    (request_step op reads acc a).cache = acc.cache ∧
    (request_step op reads acc a).reading = acc.reading ∧
    (request_step op reads acc a).waiting_ops = acc.waiting_ops ∧
    (∀ s, s ≠ a → (request_step op reads acc a).requesting s =
        acc.requesting s ∧
      (request_step op reads acc a).writing s = acc.writing s) ∧
    (request_step op reads acc a).requesting a =
      acc.requesting a ∪ (((reads a \ acc.cache a) \ acc.reading a) \
        acc.writing a) ∧
    (request_step op reads acc a).writing a =
      acc.writing a ∪ (if reads a = ∅ then ∅ else op.writes a) := by
  unfold request_step
  by_cases h0 : reads a = ∅
  · simp [h0]
  · simp only [h0, if_false]
    by_cases h1 : ((reads a \ acc.cache a) \ acc.reading a) \ acc.writing a = ∅
    · simp [h1, Function.update]
      intro s hs
      simp [Function.update, hs]
    · simp [h1, Function.update]
      intro s hs
      simp [Function.update, hs]

/-- Effect of the whole `Object::request` read-subtraction loop over a
duplicate-free shard list. -/
theorem request_step_foldl {n : Nat} (op : CacheOp n)
    (reads : Fin n → Finset Nat) (l : List (Fin n)) (hnd : l.Nodup)
    (st : ObjState n) :
    (l.foldl (request_step op reads) st).cache = st.cache ∧
    (l.foldl (request_step op reads) st).reading = st.reading ∧
    (l.foldl (request_step op reads) st).waiting_ops = st.waiting_ops ∧
    (∀ s, s ∉ l →
      (l.foldl (request_step op reads) st).requesting s = st.requesting s ∧
      (l.foldl (request_step op reads) st).writing s = st.writing s) ∧
    (∀ s, s ∈ l →
      (l.foldl (request_step op reads) st).requesting s =
        st.requesting s ∪ (((reads s \ st.cache s) \ st.reading s) \
          st.writing s) ∧
      (l.foldl (request_step op reads) st).writing s =
        st.writing s ∪ (if reads s = ∅ then ∅ else op.writes s)) := by
  induction l generalizing st with
  | nil => simp
  | cons a l' ih =>
    have hnd' : l'.Nodup := hnd.of_cons
    have hna : a ∉ l' := by
      have := List.nodup_cons.mp hnd
      exact this.1
    obtain ⟨hc, hr, hw, hout, hin⟩ := ih hnd' (request_step op reads st a)
    obtain ⟨sc, sr, sw, sout, sreq, swr⟩ := request_step_fields op reads st a
    simp only [List.foldl_cons]
    refine ⟨hc.trans sc, hr.trans sr, hw.trans sw, ?_, ?_⟩
    · intro s hs
      have hs1 : s ≠ a := fun h => hs (h ▸ List.mem_cons_self a l')
      have hs2 : s ∉ l' := fun h => hs (List.mem_cons_of_mem a h)
      obtain ⟨h1, h2⟩ := hout s hs2
      obtain ⟨h3, h4⟩ := sout s hs1
      exact ⟨h1.trans h3, h2.trans h4⟩
    · intro s hs
      rcases List.mem_cons.mp hs with hsa | hsl
      · subst hsa
        obtain ⟨h1, h2⟩ := hout s hna
        exact ⟨h1.trans sreq, h2.trans swr⟩
      · have hs1 : s ≠ a := by
          intro h
          subst h
          exact hna hsl
        obtain ⟨h1, h2⟩ := hin s hsl
        obtain ⟨h3, h4⟩ := sout s hs1
        refine ⟨?_, ?_⟩
        · rw [h1, h3, sc, sr, h4]
        · rw [h2, h4]

/-- `cache_maybe_ready` only touches the wait queue. -/
theorem cache_maybe_ready_fields {n : Nat} (st : ObjState n) :
    (cache_maybe_ready st).1.cache = st.cache ∧
    (cache_maybe_ready st).1.requesting = st.requesting ∧
    (cache_maybe_ready st).1.reading = st.reading ∧
    (cache_maybe_ready st).1.writing = st.writing := by
  unfold cache_maybe_ready
  match h : st.waiting_ops with
  | [] => simp
  | op :: rest =>
    by_cases hc : cache_contains st.cache op.reads = true
    · simp [hc]
    · simp [hc]

/-- `request_merge` leaves cache, reading and the wait queue unchanged and
merges exactly the missing extents into `requesting`. -/
theorem request_merge_fields {n : Nat} (st : ObjState n) (op : CacheOp n) :
    (request_merge st op).cache = st.cache ∧
    (request_merge st op).reading = st.reading ∧
    (request_merge st op).waiting_ops = st.waiting_ops ∧
    (∀ s, (request_merge st op).requesting s =
      st.requesting s ∪ (((reads_of op s \ st.cache s) \ st.reading s) \
        st.writing s)) := by
  unfold request_merge reads_of
  match h : op.reads with
  | none => simp
  | some reads =>
    obtain ⟨hc, hr, hw, _, hin⟩ :=
      request_step_foldl op reads (List.finRange n) (List.nodup_finRange n) st
    exact ⟨hc, hr, hw, fun s => (hin s (List.mem_finRange s)).1⟩

/-- Counterexample for C2 as stated: op B's reads are fully contained in the
cache, yet `request` does not signal `cache_ready` for it, because
`cache_maybe_ready` only inspects the head of the wait queue and op A
(incomplete) is queued ahead. -/
theorem object_request_no_signal_despite_cached :
    cache_contains c2St.cache c2OpB.reads = true ∧
    (object_request c2St c2OpB).2.1 = [] := by
  exact ⟨by decide, by decide⟩

/-- Claim C2, amended: `Object::request(op)` always merges the missing
shard-extents of `op.reads` — reads minus cache content, minus `reading`,
minus `writing` — into `requesting` and then invokes `send_reads`, which
dispatches a backend read exactly when no read is in flight and
`requesting` is non-empty; `cache_ready` is signalled during the call only
for the head of the object's wait queue, in particular for `op` itself when
the queue was empty and the cache already contains all of `op.reads`. -/
theorem object_request_spec {n : Nat} (st : ObjState n) (op : CacheOp n) :
    (st.waiting_ops = [] → cache_contains st.cache op.reads = true →
      (object_request st op).2.1 = [op.id]) ∧
    (∀ s, (request_merge st op).requesting s =
      st.requesting s ∪ (((reads_of op s \ st.cache s) \ st.reading s) \
        st.writing s)) ∧
    ((object_request st op).2.2 = true ↔
      (∀ s, st.reading s = ∅) ∧
      ¬(∀ s, (request_merge st op).requesting s = ∅)) := by
  obtain ⟨hc, hr, hw, hreq⟩ := request_merge_fields st op
  refine ⟨?_, hreq, ?_⟩
  · intro hempty hcont
    unfold object_request
    simp only
    have hq : ({ request_merge st op with
        waiting_ops := (request_merge st op).waiting_ops ++ [op] } :
        ObjState n).waiting_ops = [op] := by
      simp [hw, hempty]
    unfold cache_maybe_ready
    rw [hq]
    simp only [hc, hcont, if_true]
  · unfold object_request
    simp only
    set st2 : ObjState n := { request_merge st op with
      waiting_ops := (request_merge st op).waiting_ops ++ [op] } with hst2
    obtain ⟨c2, q2, r2, w2⟩ := cache_maybe_ready_fields st2
    unfold send_reads
    rw [r2, q2]
    have hst2r : st2.reading = st.reading := hr
    have hst2q : st2.requesting = (request_merge st op).requesting := rfl
    rw [hst2r, hst2q]
    by_cases h1 : (∀ s, st.reading s = ∅)
    · by_cases h2 : (∀ s, (request_merge st op).requesting s = ∅)
      · simp [h1, h2]
      · simp [h1, h2]
    · simp [h1]

/-- Witness for C2 (amended): with an idle object whose cache holds op B's
reads, the request call signals `cache_ready` for op B immediately. -/
theorem object_request_spec_witness :
    (object_request c2StIdle c2OpB).2.1 = [c2OpB.id] :=
  (object_request_spec c2StIdle c2OpB).1 rfl (by decide)

/-- Evaluation of C4's failing input: `Lru::pin` creates the line for
object 1 at offset 0 but never assigns its `address` member (it stays at the
default-constructed address `(0, 0)`), so once the line is unpinned and the
over-budget `free_maybe` runs, it calls `objects.at` on the default oid 0 —
which has no entry — and aborts with `std::out_of_range` instead of evicting
the LRU head's line of object 1. -/
theorem lru_eviction_default_address_bug :
    alookup (lru_pin_one c4St0 1 0).lines (1, 0) =
      some { in_lru := false, ref_count := 1, address := (0, 0) } ∧
    (insert_bytes (lru_pin_one c4St0 1 0) 1 0 4).size = 4 ∧
    c4St0.max_size = 0 ∧
    alookup (insert_bytes (lru_pin_one c4St0 1 0) 1 0 4).objects 0 = none ∧
    c4Trace = .error () := by
  exact ⟨by decide, by decide, by decide, by decide, rfl⟩

/-- The two if-orderings of the start/end adjustment branches coincide
(`<` and `=` are mutually exclusive). -/
theorem ite_lt_eq_swap (x y u v : Nat) :
    (if x < y then u else if x = y then v else 0) =
      (if x = y then v else if x < y then u else 0) := by
  by_cases h1 : x = y
  · subst h1
    simp
  · simp [h1]

/-- Ceiling division, shifted: `(X + C - 1) / C = (X - 1) / C + 1`. -/
theorem ceil_div_sub_one (C X : Nat) (hC : 0 < C) (hX : 0 < X) :
    (X + C - 1) / C = (X - 1) / C + 1 := by
  have h1 : X + C - 1 = (X - 1) + C := by omega
  rw [h1, Nat.add_div_right _ hC]

/-- Quotient of a decomposed value. -/
theorem mul_add_div_small (C m f : Nat) (hC : 0 < C) (hf : f < C) :
    (C * m + f) / C = m := by
  rw [Nat.mul_add_div hC, Nat.div_eq_of_lt hf, Nat.add_zero]

/-- Remainder of a decomposed value. -/
theorem mul_add_mod_small (C m f : Nat) (hf : f < C) :
    (C * m + f) % C = f := by
  rw [Nat.mul_add_mod, Nat.mod_eq_of_lt hf]

/-- The loop's `i >= k ? i - k : i` wrap equals `i % k` on the window the
loop visits. -/
theorem raw_shard_eq_mod (k i : Nat) (hk : 0 < k) (hik : i < 2 * k) :
    (if i ≥ k then i - k else i) = i % k := by
  by_cases h : i ≥ k
  · rw [if_pos h, Nat.mod_eq_sub_mod h, Nat.mod_eq_of_lt (by omega)]
  · rw [if_neg h, Nat.mod_eq_of_lt (by omega)]

/-- First raw shard of the window is below `k`. -/
theorem start_shard_lt (k C O : Nat) (hk : 0 < k) (hC : 0 < C) :
    (O - O / (k * C) * (k * C)) / C < k := by
  have hS : 0 < k * C := Nat.mul_pos hk hC
  have h1 : O - O / (k * C) * (k * C) = O % (k * C) := by
    have h2 := Nat.div_add_mod O (k * C)
    have h3 : O / (k * C) * (k * C) = k * C * (O / (k * C)) :=
      Nat.mul_comm _ _
    omega
  rw [h1]
  exact (Nat.div_lt_iff_lt_mul hC).mpr (Nat.mod_lt O hS)

/-- Pointwise agreement of the loop body with the claim's per-shard formula
on the visited window. -/
theorem ro_shard_extent_eq_spec (k C : Nat) (mapping : List Nat) (O L i : Nat)
    (hk : 0 < k) (hC : 0 < C)
    (hlo : (O - O / (k * C) * (k * C)) / C ≤ i)
    (hhi : i < (O - O / (k * C) * (k * C)) / C + k) :
    ro_shard_extent k C mapping O L i =
      ((spec_shard_extent k C mapping O L i).1,
       (spec_shard_extent k C mapping O L i).2.1,
       (spec_shard_extent k C mapping O L i).2.2 -
         (spec_shard_extent k C mapping O L i).2.1) := by
  have hfirst := start_shard_lt k C O hk hC
  have hik : i < 2 * k := by omega
  simp only [ro_shard_extent, spec_shard_extent]
  rw [raw_shard_eq_mod k i hk hik]
  rw [ite_lt_eq_swap, ite_lt_eq_swap]
  refine congrArg (fun z => (map_shard mapping (i % k),
    O / (k * C) * C +
      (if i % k = (O - O / (k * C) * (k * C)) / C then O % C
       else if i % k < (O - O / (k * C) * (k * C)) / C then C else 0), z)) ?_
  rw [Nat.sub_sub]

/-- Claim C1: for `L > 0` the geometry loop of `ro_range_to_shards` /
`get_min_want_to_read_shards` emits, for each raw shard `r` in
`[first, first + min(chunk_count, k))`, exactly one extent whose offset is
`start + start_adj` and whose length makes it the interval
`[start + start_adj, end + end_adj)` (the interval's endpoints are ordered,
so the `(offset, length)` pair represents it exactly), on physical shard
`mapping[r mod k]`, with the claimed start/end adjustments; a request with
`L = 0` emits no extents at all. -/
theorem ro_range_to_shards_geometry (k C O L : Nat) (mapping : List Nat)
    (hk : 0 < k) (hC : 0 < C) :
    ro_range_to_shards k C mapping O 0 = [] ∧
    (0 < L →
      ro_range_to_shards k C mapping O L =
        (spec_shard_extents k C mapping O L).map
          (fun e => (e.1, e.2.1, e.2.2 - e.2.1)) ∧
      ∀ e ∈ spec_shard_extents k C mapping O L, e.2.1 ≤ e.2.2) := by
  constructor
  · simp [ro_range_to_shards]
  intro hL
  have hL0 : ¬(L = 0) := by omega
  have hS : 0 < k * C := Nat.mul_pos hk hC
  constructor
  · simp only [ro_range_to_shards, spec_shard_extents, if_neg hL0,
      List.map_map]
    rw [Nat.add_sub_cancel_left]
    refine List.map_congr_left ?_
    intro j hj
    rw [List.mem_range] at hj
    have hm : min ((O + L + C - 1) / C - O / C) k ≤ k := Nat.min_le_right _ _
    exact ro_shard_extent_eq_spec k C mapping O L _ hk hC
      (Nat.le_add_right _ _) (by omega)
  · intro e he
    simp only [spec_shard_extents, if_neg hL0, List.mem_map,
      List.mem_range] at he
    obtain ⟨j, hj, rfl⟩ := he
    simp only [spec_shard_extent]
    -- decompositions: O = (k*C)*a + o, o = C*(o/C) + o%C, similarly o+L-1
    set S := k * C with hSdef
    set a := O / S with ha
    have hoa : S * a + O % S = O := Nat.div_add_mod O S
    have hoS : O % S < S := Nat.mod_lt O hS
    set o := O % S with ho
    have hOaS : O - a * S = o := by
      have h2 : a * S = S * a := Nat.mul_comm a S
      omega
    rw [hOaS]
    have hof : C * (o / C) + o % C = o := Nat.div_add_mod o C
    have hfC : o % C < C := Nat.mod_lt o hC
    have hgr : C * ((o + L - 1) / C) + (o + L - 1) % C = o + L - 1 :=
      Nat.div_add_mod _ C
    have hrC : (o + L - 1) % C < C := Nat.mod_lt _ hC
    have hSa : S * a = C * (a * k) := by
      rw [hSdef]
      ring
    have hOC : O = C * (a * k + o / C) + o % C := by
      have h2 : C * (a * k + o / C) = C * (a * k) + C * (o / C) := by ring
      omega
    have hOdC : O / C = a * k + o / C := by
      conv =>
        lhs
        rw [hOC]
      exact mul_add_div_small C _ _ hC hfC
    have hOmC : O % C = o % C := by
      conv =>
        lhs
        rw [hOC]
      exact mul_add_mod_small C _ _ hfC
    have hOLC : O + L - 1 = C * (a * k + (o + L - 1) / C) + (o + L - 1) % C := by
      have h2 : C * (a * k + (o + L - 1) / C) =
          C * (a * k) + C * ((o + L - 1) / C) := by ring
      omega
    have hOLdC : (O + L - 1) / C = a * k + (o + L - 1) / C := by
      conv =>
        lhs
        rw [hOLC]
      exact mul_add_div_small C _ _ hC hrC
    have hOLmC : (O + L - 1) % C = (o + L - 1) % C := by
      conv =>
        lhs
        rw [hOLC]
      exact mul_add_mod_small C _ _ hrC
    have hceil : (O + L + C - 1) / C = (O + L - 1) / C + 1 :=
      ceil_div_sub_one C (O + L) hC (by omega)
    have hge : o / C ≤ (o + L - 1) / C := Nat.div_le_div_right (by omega)
    have hcc : (O + L + C - 1) / C - O / C = (o + L - 1) / C + 1 - o / C := by
      rw [hceil, hOLdC, hOdC]
      omega
    have hceilS : (O + L + S - 1) / S = (O + L - 1) / S + 1 :=
      ceil_div_sub_one S (O + L) hS (by omega)
    have hOLdS : (O + L - 1) / S = a + (o + L - 1) / S := by
      have h1 : O + L - 1 = S * a + (o + L - 1) := by omega
      rw [h1, Nat.mul_add_div hS]
    have hend : (O + L + S - 1) / S - 1 = a + (o + L - 1) / S := by
      rw [hceilS, hOLdS]
      exact Nat.add_sub_cancel _ 1
    rw [hcc, hend, hOmC, hOLmC]
    rw [hcc] at hj
    have he1k : o / C < k := (Nat.div_lt_iff_lt_mul hC).mpr (by omega)
    -- conditional facts about the last stripe, established before the
    -- division atoms are generalized away
    have hgkc : o + L - 1 < S → (o + L - 1) / C < k := fun hs =>
      (Nat.div_lt_iff_lt_mul hC).mpr (by omega)
    have hpSc : o + L - 1 < S → (o + L - 1) / S = 0 := fun hs =>
      Nat.div_eq_of_lt hs
    have hpS1c : ¬(o + L - 1 < S) → 1 ≤ (o + L - 1) / S := fun hs =>
      Nat.one_le_div_iff hS |>.mpr (by omega)
    revert hj hof hfC hgr hrC hge he1k hgkc hpSc hpS1c
    generalize o / C = u
    generalize (o + L - 1) / C = w
    generalize o % C = f2
    generalize (o + L - 1) % C = r2
    generalize (o + L - 1) / S = v
    intro hj hof hfC hgr hrC hge he1k hgkc hpSc hpS1c
    by_cases hsame : o + L - 1 < S
    · -- single-stripe case: end_div = begin_div, no wrap, shards end at last
      have hv0 : v = 0 := hpSc hsame
      subst hv0
      have hgk : w < k := hgkc hsame
      have hlast : (u + (w + 1 - u) - 1) % k = w := by
        have h1 : u + (w + 1 - u) - 1 = w := by omega
        rw [h1, Nat.mod_eq_of_lt hgk]
      have hrm : (u + j) % k = u + j := Nat.mod_eq_of_lt (by omega)
      rw [hlast, hrm]
      simp only [Nat.add_zero]
      by_cases heg : u = w
      · have hCeg : C * u = C * w := by rw [heg]
        split_ifs <;> omega
      · split_ifs <;> omega
    · -- multi-stripe case: end >= start + C >= start + start_adj
      have hv1 : 1 ≤ v := hpS1c hsame
      have hlink : (a + v) * C = a * C + v * C := by ring
      have hCle : C ≤ v * C := by
        have h1 := Nat.mul_le_mul_right C hv1
        rwa [Nat.one_mul] at h1
      split_ifs <;> omega

/-- Witness for C1: a concrete unaligned range (`k = 2`, `C = 4`,
`[6, 16)`) and the empty `L = 0` case. -/
theorem ro_range_to_shards_geometry_witness :
    ro_range_to_shards 2 4 [1, 0] 6 10 =
      (spec_shard_extents 2 4 [1, 0] 6 10).map
        (fun e => (e.1, e.2.1, e.2.2 - e.2.1)) ∧
    ro_range_to_shards 2 4 [1, 0] 6 0 = [] := by
  have h := ro_range_to_shards_geometry 2 4 6 10 [1, 0] (by decide) (by decide)
  exact ⟨(h.2 (by decide)).1, h.1⟩

/-- A word `and`-ed with a one-bit mask is non-zero iff that bit is set. -/
theorem and_two_pow_ne_zero_iff (w b : Nat) :
    (w &&& 2 ^ b ≠ 0) ↔ w.testBit b = true := by
  constructor
  · intro h
    obtain ⟨i, hi⟩ := Nat.ne_zero_implies_bit_true h
    rw [Nat.testBit_and, Bool.and_eq_true] at hi
    have hbi : b = i := by
      have h2 := hi.2
      rw [Nat.testBit_two_pow] at h2
      exact of_decide_eq_true h2
    rw [hbi]
    exact hi.1
  · intro h h0
    have hbit : (w &&& 2 ^ b).testBit b = true := by
      rw [Nat.testBit_and, h, Nat.testBit_two_pow_self]
      rfl
    rw [h0] at hbit
    simp at hbit

/-- `bs_contains` through `Nat.testBit`. -/
theorem contains_iff_testBit (words : List Nat) (x : Nat) :
    bs_contains words x = (words.getD (x / 64) 0).testBit (x % 64) := by
  unfold bs_contains
  have h1 : (1 : Nat) <<< (x % 64) = 2 ^ (x % 64) := by
    rw [Nat.shiftLeft_eq, one_mul]
  rw [h1]
  by_cases h : (words.getD (x / 64) 0).testBit (x % 64) = true
  · rw [h]
    exact decide_eq_true ((and_two_pow_ne_zero_iff _ _).mpr h)
  · rw [Bool.not_eq_true] at h
    rw [h]
    apply decide_eq_false
    intro hne
    rw [(and_two_pow_ne_zero_iff _ _).mp hne] at h
    cases h

/-- `List.getD` after `List.set`. -/
theorem getD_set_ite (l : List Nat) (i j v : Nat) :
    (l.set i v).getD j 0 = if i = j ∧ j < l.length then v else l.getD j 0 := by
  simp only [List.getD_eq_getElem?_getD, List.getElem?_set]
  by_cases h1 : i = j
  · subst h1
    by_cases h2 : i < l.length
    · rw [if_pos rfl, if_pos h2, if_pos ⟨rfl, h2⟩]
      rfl
    · rw [if_pos rfl, if_neg h2,
        if_neg (show ¬(i = i ∧ i < l.length) from fun hc => h2 hc.2),
        List.getElem?_eq_none (Nat.le_of_not_lt h2)]
  · rw [if_neg h1,
      if_neg (show ¬(i = j ∧ j < l.length) from fun hc => h1 hc.1)]

/-- Length is preserved by the word-filling loop. -/
theorem fill_loop_length (v base : Nat) :
    ∀ (m : Nat) (ws : List Nat),
      ((List.range m).foldl (fun acc t => acc.set (base + t) v) ws).length =
        ws.length := by
  intro m
  induction m with
  | zero => intro ws; rfl
  | succ m ih =>
    intro ws
    rw [List.range_succ, List.foldl_append, List.foldl_cons, List.foldl_nil,
      List.length_set, ih]

/-- `List.getD` of the word-filling loop. -/
theorem fill_loop_getD (v base : Nat) :
    ∀ (m : Nat) (ws : List Nat) (j : Nat),
      ((List.range m).foldl (fun acc t => acc.set (base + t) v) ws).getD j 0 =
        if base ≤ j ∧ j < base + m ∧ j < ws.length then v
        else ws.getD j 0 := by
  intro m
  induction m with
  | zero =>
    intro ws j
    rw [if_neg (by omega)]
    rfl
  | succ m ih =>
    intro ws j
    rw [List.range_succ, List.foldl_append, List.foldl_cons, List.foldl_nil,
      getD_set_ite, fill_loop_length, ih]
    by_cases hj : base ≤ j ∧ j < base + (m + 1) ∧ j < ws.length
    · rw [if_pos hj]
      by_cases hjm : base + m = j ∧ j < ws.length
      · rw [if_pos hjm]
      · rw [if_neg hjm, if_pos (by omega)]
    · rw [if_neg hj, if_neg (by omega), if_neg (by omega)]

/-- `List.getD` of `fill_words`. -/
theorem fill_words_getD (ws : List Nat) (sw ew v j : Nat) :
    (fill_words ws sw ew v).getD j 0 =
      if sw + 1 ≤ j ∧ j < ew ∧ j < ws.length then v else ws.getD j 0 := by
  unfold fill_words
  rw [fill_loop_getD]
  by_cases h : sw + 1 ≤ j ∧ j < ew ∧ j < ws.length
  · rw [if_pos h, if_pos (by omega)]
  · rw [if_neg h, if_neg (by omega)]

/-- `fill_words` preserves the word count. -/
theorem fill_words_length (ws : List Nat) (sw ew v : Nat) :
    (fill_words ws sw ew v).length = ws.length := by
  unfold fill_words
  rw [fill_loop_length]

/-- Bits of `((1 << len) - 1) << b` on a 64-bit word. -/
theorem testBit_mask_shift (len b j : Nat) :
    ((((1 <<< len) - 1) <<< b) % 2 ^ 64).testBit j =
      decide (b ≤ j ∧ j - b < len ∧ j < 64) := by
  rw [Nat.testBit_mod_two_pow, Nat.testBit_shiftLeft, Nat.shiftLeft_eq,
    one_mul, Nat.testBit_two_pow_sub_one]
  rw [← Bool.decide_and, ← Bool.decide_and]
  exact decide_eq_decide.mpr (by omega)

/-- Bits of `-1UL << b` on a 64-bit word. -/
theorem testBit_mask_high (b j : Nat) :
    (((2 ^ 64 - 1) <<< b) % 2 ^ 64).testBit j = decide (b ≤ j ∧ j < 64) := by
  rw [Nat.testBit_mod_two_pow, Nat.testBit_shiftLeft,
    Nat.testBit_two_pow_sub_one]
  rw [← Bool.decide_and, ← Bool.decide_and]
  exact decide_eq_decide.mpr (by omega)

/-- Bits of `(1 << m) - 1`. -/
theorem testBit_mask_lo (m j : Nat) :
    ((1 <<< m) - 1).testBit j = decide (j < m) := by
  rw [Nat.shiftLeft_eq, one_mul, Nat.testBit_two_pow_sub_one]

/-- Bits of a complemented 64-bit word (`~v` as `(2^64-1) ^^^ v`). -/
theorem testBit_compl (v j : Nat) (hj : j < 64) :
    ((2 ^ 64 - 1) ^^^ v).testBit j = !v.testBit j := by
  rw [Nat.testBit_xor, Nat.testBit_two_pow_sub_one, decide_eq_true hj,
    Bool.true_xor]

/-- Claim C9: over the key domain `[0, 64 * WORDS)`, `insert_range(start,
length)` with `start + length ≤ N` makes the set contain exactly its
previous elements plus every key in `[start, start + length)`, and
`erase_range(start, length)` removes exactly the keys of that interval,
leaving all other keys unchanged — including ranges ending exactly on a
word boundary or covering whole words. -/
theorem bitset_set_range_ops (words : List Nat) (start len : Nat)
    (h : start + len ≤ 64 * words.length) :
    (∀ x, x < 64 * words.length →
      bs_contains (insert_range words start len) x =
        (bs_contains words x || decide (start ≤ x ∧ x < start + len))) ∧
    (∀ x, x < 64 * words.length →
      bs_contains (erase_range words start len) x =
        (bs_contains words x && !decide (start ≤ x ∧ x < start + len))) := by
  constructor
  · intro x hx
    have hxw : x / 64 < words.length := by omega
    have hb64 : x % 64 < 64 := by omega
    rw [contains_iff_testBit, contains_iff_testBit]
    simp only [insert_range]
    by_cases hsw : start / 64 = (start + len) / 64
    · rw [if_pos hsw, getD_set_ite]
      by_cases hij : start / 64 = x / 64 ∧ x / 64 < words.length
      · rw [if_pos hij, hij.1, Nat.testBit_or, testBit_mask_shift]
        congr 1
        exact decide_eq_decide.mpr (by omega)
      · rw [if_neg hij]
        have hout : ¬(start ≤ x ∧ x < start + len) := by
          intro hc
          exact hij ⟨by omega, hxw⟩
        rw [decide_eq_false hout, Bool.or_false]
    · rw [if_neg hsw, getD_set_ite, fill_words_length, List.length_set]
      by_cases hij : (start + len) / 64 = x / 64 ∧ x / 64 < words.length
      · rw [if_pos hij, fill_words_getD, List.length_set,
          if_neg (by omega), getD_set_ite, if_neg (by omega),
          Nat.testBit_or, testBit_mask_lo, ← hij.1]
        congr 1
        exact decide_eq_decide.mpr (by omega)
      · rw [if_neg hij, fill_words_getD, List.length_set]
        by_cases hmid : start / 64 + 1 ≤ x / 64 ∧ x / 64 < (start + len) / 64 ∧
            x / 64 < words.length
        · rw [if_pos hmid, Nat.testBit_two_pow_sub_one, decide_eq_true hb64,
            decide_eq_true (show start ≤ x ∧ x < start + len by omega),
            Bool.or_true]
        · rw [if_neg hmid, getD_set_ite]
          by_cases hsj : start / 64 = x / 64 ∧ x / 64 < words.length
          · rw [if_pos hsj, hsj.1, Nat.testBit_or, testBit_mask_high]
            congr 1
            refine decide_eq_decide.mpr ?_
            have h1 : start / 64 = x / 64 := hsj.1
            constructor
            · intro hc
              omega
            · intro hc
              omega
          · rw [if_neg hsj]
            have hout : ¬(start ≤ x ∧ x < start + len) := by
              intro hc
              have h1 : start / 64 ≠ x / 64 := fun he => hsj ⟨he, hxw⟩
              have h2 : (start + len) / 64 ≠ x / 64 := fun he => hij ⟨he, hxw⟩
              omega
            rw [decide_eq_false hout, Bool.or_false]
  · intro x hx
    have hxw : x / 64 < words.length := by omega
    have hb64 : x % 64 < 64 := by omega
    rw [contains_iff_testBit, contains_iff_testBit]
    simp only [erase_range]
    by_cases hsw : start / 64 = (start + len) / 64
    · rw [if_pos hsw, getD_set_ite]
      by_cases hij : start / 64 = x / 64 ∧ x / 64 < words.length
      · rw [if_pos hij, hij.1, Nat.testBit_and, testBit_compl _ _ hb64,
          testBit_mask_shift]
        congr 2
        exact decide_eq_decide.mpr (by omega)
      · rw [if_neg hij]
        have hout : ¬(start ≤ x ∧ x < start + len) := by
          intro hc
          exact hij ⟨by omega, hxw⟩
        rw [decide_eq_false hout, Bool.not_false, Bool.and_true]
    · rw [if_neg hsw, getD_set_ite, fill_words_length, List.length_set]
      by_cases hij : (start + len) / 64 = x / 64 ∧ x / 64 < words.length
      · rw [if_pos hij, fill_words_getD, List.length_set,
          if_neg (by omega), getD_set_ite, if_neg (by omega),
          Nat.testBit_and, testBit_compl _ _ hb64, testBit_mask_lo, ← hij.1]
        congr 2
        exact decide_eq_decide.mpr (by omega)
      · rw [if_neg hij, fill_words_getD, List.length_set]
        by_cases hmid : start / 64 + 1 ≤ x / 64 ∧ x / 64 < (start + len) / 64 ∧
            x / 64 < words.length
        · rw [if_pos hmid, Nat.zero_testBit,
            decide_eq_true (show start ≤ x ∧ x < start + len by omega),
            Bool.not_true, Bool.and_false]
        · rw [if_neg hmid, getD_set_ite]
          by_cases hsj : start / 64 = x / 64 ∧ x / 64 < words.length
          · rw [if_pos hsj, hsj.1, Nat.testBit_and, testBit_compl _ _ hb64,
              testBit_mask_high]
            congr 2
            refine decide_eq_decide.mpr ?_
            have h1 : start / 64 = x / 64 := hsj.1
            constructor
            · intro hc
              omega
            · intro hc
              omega
          · rw [if_neg hsj]
            have hout : ¬(start ≤ x ∧ x < start + len) := by
              intro hc
              have h1 : start / 64 ≠ x / 64 := fun he => hsj ⟨he, hxw⟩
              have h2 : (start + len) / 64 ≠ x / 64 := fun he => hij ⟨he, hxw⟩
              omega
            rw [decide_eq_false hout, Bool.not_false, Bool.and_true]

/-- Witness for C9: a concrete range crossing a word boundary. -/
theorem bitset_set_range_ops_witness :
    bs_contains (insert_range [0, 0] 60 8) 64 =
      (bs_contains [0, 0] 64 || decide (60 ≤ 64 ∧ 64 < 60 + 8)) ∧
    bs_contains (erase_range [0, 2 ^ 62] 60 8) 126 =
      (bs_contains [0, 2 ^ 62] 126 && !decide (60 ≤ 126 ∧ 126 < 60 + 8)) :=
  ⟨(bitset_set_range_ops [0, 0] 60 8 (by decide)).1 64 (by decide),
   (bitset_set_range_ops [0, 2 ^ 62] 60 8 (by decide)).2 126 (by decide)⟩

set_option maxRecDepth 20000 in
/-- Evaluation of C10's failing input: swapping a full 128-key map (built by
128 `emplace` calls, `_size = 128`) with an empty map truncates the size
through the `int8_t` temporary, leaving the map that now holds the 128 keys
with `_size = 2^64 - 128`, so `size()` no longer equals the number of
contained keys. -/
theorem mfm_swap_size_truncation_bug :
    mfm_full128.sz = 128 ∧
    mfm_contained_count mfm_full128 = 128 ∧
    (mfm_swap mfm_full128 (mfm_new 128)).2.sz = 2 ^ 64 - 128 ∧
    mfm_contained_count (mfm_swap mfm_full128 (mfm_new 128)).2 = 128 ∧
    (mfm_swap mfm_full128 (mfm_new 128)).2.sz ≠
      mfm_contained_count (mfm_swap mfm_full128 (mfm_new 128)).2 := by
  refine ⟨by decide, by decide, by decide, by decide, by decide⟩

/-- The bytes of `substr_of(bl, B, m)` (a drop-then-take slice). -/
theorem take_drop_get (bl : Buf) (B m u : Nat) :
    ((bl.drop B).take m).get? u = if u < m then bl.get? (B + u) else none := by
  rw [List.get?_take_eq_if, List.get?_drop]

/-- A list lookup succeeds exactly within the length. -/
theorem get_isSome_iff (l : Buf) (m : Nat) : (l.get? m).isSome ↔ m < l.length := by
  rw [List.get?_eq_getElem?]
  constructor
  · intro h
    by_contra hlt
    rw [List.getElem?_eq_none (by omega)] at h
    simp at h
  · intro h
    rw [List.getElem?_eq_getElem h]
    rfl

/-- Bytes of the chunk-collecting `while` loop: byte `u` of the output
is byte `pos + (u / C) * stride + u % C` of the source buffer, when that
index is in range (`stride = k * C`); only the last chunk can be partial,
so the concatenation never skews later indices. -/
theorem collect_chunks_get (C k : Nat) (bl : Buf) (hC : 0 < C) (hk : 0 < k) :
    ∀ fuel pos, bl.length ≤ fuel + pos → ∀ u,
    (collect_chunks C (k * C) bl fuel pos).get? u =
      if pos + u / C * (k * C) + u % C < bl.length
      then bl.get? (pos + u / C * (k * C) + u % C) else none := by
  intro fuel
  induction fuel with
  | zero =>
    intro pos hfu u
    have hidx : bl.length ≤ pos + u / C * (k * C) + u % C :=
      Nat.le_trans (by omega)
        (Nat.le_trans (Nat.le_add_right pos _) (Nat.le_add_right _ _))
    simp only [collect_chunks]
    rw [if_neg (Nat.not_lt.mpr hidx)]
    rfl
  | succ fuel ih =>
    intro pos hfu u
    have hkC : 0 < k * C := Nat.mul_pos hk hC
    simp only [collect_chunks]
    by_cases hpos : pos < bl.length
    · rw [if_pos hpos]
      have hhl : ((bl.drop pos).take (min C (bl.length - pos))).length
          = min C (bl.length - pos) := by
        simp only [List.length_take, List.length_drop]
        omega
      by_cases hu : u < min C (bl.length - pos)
      · rw [List.get?_append (by rw [hhl]; exact hu), take_drop_get, if_pos hu]
        have huC : u < C := by omega
        rw [Nat.div_eq_of_lt huC, Nat.mod_eq_of_lt huC, Nat.zero_mul,
          Nat.add_zero]
        rw [if_pos (by omega)]
      · have hle : ((bl.drop pos).take (min C (bl.length - pos))).length ≤ u := by
          rw [hhl]; omega
        rw [List.get?_append_right hle, hhl,
          ih (pos + k * C) (by omega)]
        by_cases htr : C ≤ bl.length - pos
        · have hmin : min C (bl.length - pos) = C := by omega
          rw [hmin]
          obtain ⟨m, rfl⟩ : ∃ m, u = m + C := ⟨u - C, by omega⟩
          rw [Nat.add_sub_cancel]
          have hidx : pos + k * C + m / C * (k * C) + m % C
              = pos + (m + C) / C * (k * C) + (m + C) % C := by
            rw [Nat.add_div_right _ hC, Nat.add_mod_right]
            ring
          rw [hidx]
        · have hmin : min C (bl.length - pos) = bl.length - pos := by omega
          rw [hmin]
          have hCkC : C ≤ k * C := Nat.le_mul_of_pos_left C hk
          have hg1 : ¬ (pos + k * C
              + (u - (bl.length - pos)) / C * (k * C)
              + (u - (bl.length - pos)) % C < bl.length) := by
            have h1 := Nat.le_add_right (pos + k * C)
              ((u - (bl.length - pos)) / C * (k * C))
            have h2 := Nat.le_add_right
              (pos + k * C + (u - (bl.length - pos)) / C * (k * C))
              ((u - (bl.length - pos)) % C)
            omega
          have hg2 : ¬ (pos + u / C * (k * C) + u % C < bl.length) := by
            have hdm := Nat.div_add_mod u C
            rcases Nat.eq_zero_or_pos (u / C) with h0 | h1
            · have hmod : u % C = u := by
                rw [h0, Nat.mul_zero, Nat.zero_add] at hdm
                exact hdm
              rw [h0, Nat.zero_mul, Nat.add_zero]
              omega
            · have hge : k * C ≤ u / C * (k * C) :=
                Nat.le_mul_of_pos_left _ h1
              have h2 := Nat.le_add_right (pos + u / C * (k * C)) (u % C)
              omega
          rw [if_neg hg1, if_neg hg2]
    · rw [if_neg hpos]
      have hidx : bl.length ≤ pos + u / C * (k * C) + u % C :=
        Nat.le_trans (by omega)
          (Nat.le_trans (Nat.le_add_right pos _) (Nat.le_add_right _ _))
      rw [if_neg (Nat.not_lt.mpr hidx)]
      rfl

/-- Splitting one factor `C` off `k * C`. -/
theorem pred_mul_add (k C : Nat) (hk : 0 < k) : (k - 1) * C + C = k * C := by
  obtain ⟨m, rfl⟩ : ∃ m, k = m + 1 := ⟨k - 1, by omega⟩
  rw [Nat.add_sub_cancel]
  ring

/-- Bytes of `shard_bl` in the partial-first-chunk branch
(`start_adj != chunk_size`, `B` the incoming `buffer_shard_start_offset`,
`s` the `start_adj`): a unified index formula covering the head slice and
every strided chunk. -/
theorem shard_bl_general_get (C k : Nat) (bl : Buf) (B s : Nat)
    (hC : 0 < C) (hk : 0 < k) (hs : s < C) (t : Nat) :
    ((bl.drop B).take (min (bl.length - B) (C - s)) ++
        collect_chunks C (k * C) bl bl.length
          (B + (C - s) + (k - 1) * C)).get? t =
      if B + t + (t + s) / C * ((k - 1) * C) < bl.length
      then bl.get? (B + t + (t + s) / C * ((k - 1) * C)) else none := by
  have hk1 := pred_mul_add k C hk
  have hhl : ((bl.drop B).take (min (bl.length - B) (C - s))).length
      = min (bl.length - B) (C - s) := by
    simp only [List.length_take, List.length_drop]
    omega
  by_cases ht : t < min (bl.length - B) (C - s)
  · rw [List.get?_append (by rw [hhl]; exact ht), take_drop_get, if_pos ht]
    have hts : (t + s) / C = 0 := Nat.div_eq_of_lt (by omega)
    rw [hts, Nat.zero_mul, Nat.add_zero, if_pos (by omega)]
  · rw [List.get?_append_right (by rw [hhl]; omega), hhl,
      collect_chunks_get C k bl hC hk bl.length _ (by omega)]
    by_cases htr : C - s ≤ bl.length - B
    · have hmin : min (bl.length - B) (C - s) = C - s := by omega
      rw [hmin]
      obtain ⟨u, rfl⟩ : ∃ u, t = u + (C - s) := ⟨t - (C - s), by omega⟩
      rw [Nat.add_sub_cancel]
      obtain ⟨d, e, rfl, helt⟩ : ∃ d e, u = C * d + e ∧ e < C :=
        ⟨u / C, u % C, (Nat.div_add_mod u C).symm, Nat.mod_lt u hC⟩
      have hidx : B + (C - s) + (k - 1) * C
            + (C * d + e) / C * (k * C) + (C * d + e) % C
          = B + (C * d + e + (C - s))
            + (C * d + e + (C - s) + s) / C * ((k - 1) * C) := by
        rw [show C * d + e + (C - s) + s = C * d + e + C from by omega,
          Nat.add_div_right _ hC,
          mul_add_div_small C d e hC helt, mul_add_mod_small C d e helt,
          ← hk1]
        ring
      rw [hidx]
    · have hmin : min (bl.length - B) (C - s) = bl.length - B := by omega
      rw [hmin]
      rw [if_neg ?hg1, if_neg ?hg2]
      case hg1 =>
        generalize (t - (bl.length - B)) / C * (k * C) = X
        generalize (t - (bl.length - B)) % C = Y
        generalize (k - 1) * C = Z
        omega
      case hg2 =>
        generalize (t + s) / C * ((k - 1) * C) = X
        omega

/-- Bytes of `shard_bl` in the aligned branch (`start_adj = chunk_size`):
the `while` loop alone, starting at the incoming offset. -/
theorem shard_bl_else_get (C k : Nat) (bl : Buf) (B : Nat)
    (hC : 0 < C) (hk : 0 < k) (t : Nat) :
    (collect_chunks C (k * C) bl bl.length B).get? t =
      if B + t + t / C * ((k - 1) * C) < bl.length
      then bl.get? (B + t + t / C * ((k - 1) * C)) else none := by
  have hk1 := pred_mul_add k C hk
  rw [collect_chunks_get C k bl hC hk bl.length _ (by omega)]
  obtain ⟨d, e, rfl, helt⟩ : ∃ d e, t = C * d + e ∧ e < C :=
    ⟨t / C, t % C, (Nat.div_add_mod t C).symm, Nat.mod_lt t hC⟩
  have hidx : B + (C * d + e) / C * (k * C) + (C * d + e) % C
      = B + (C * d + e) + (C * d + e) / C * ((k - 1) * C) := by
    rw [mul_add_div_small C d e hC helt, mul_add_mod_small C d e helt, ← hk1]
    ring
  rw [hidx]

/-- Reading the inserted shard back: the ownership window holds the
buffer's bytes, everything else is unchanged. -/
theorem insert_in_shard_bytes_self (M : SMap) (b : Buf) (shard off q : Nat) :
    insert_in_shard_bytes M shard off b shard q =
      if off ≤ q ∧ q - off < b.length then b.get? (q - off)
      else M shard q := by
  simp only [insert_in_shard_bytes]
  by_cases hb : b.length = 0
  · rw [if_pos hb, if_neg (by omega)]
  · rw [if_neg hb]
    by_cases hP : off ≤ q ∧ q - off < b.length
    · exact (if_pos ⟨rfl, hP.1, by omega⟩).trans (by rw [if_pos hP])
    · refine (if_neg ?_).trans (by rw [if_neg hP])
      intro hc
      exact hP ⟨hc.2.1, by omega⟩

/-- An insert never touches other shards. -/
theorem insert_in_shard_bytes_other (M : SMap) (b : Buf)
    (shard off s q : Nat) (h : s ≠ shard) :
    insert_in_shard_bytes M shard off b s q = M s q := by
  simp only [insert_in_shard_bytes]
  by_cases hb : b.length = 0
  · rw [if_pos hb]
  · rw [if_neg hb]
    exact if_neg (fun hc => h hc.1)

/-- The loop index assigned to raw shard `r` (its distance from
`start_shard`, wrapping at `k`) is below `k`. -/
theorem jOf_lt (k f r : Nat) (hf : f < k) (hr : r < k) :
    (if f ≤ r then r - f else r + k - f) < k := by
  split_ifs <;> omega

/-- Loop index `n` emits raw shard `r` exactly when `n` is `r`'s distance
from `start_shard` modulo `k`. -/
theorem raw_eq_iff_jOf (k f n r : Nat) (hf : f < k) (hn : n < k) (hr : r < k) :
    (if f + n ≥ k then f + n - k else f + n) = r ↔
      (if f ≤ r then r - f else r + k - f) = n := by
  split_ifs <;> omega

/-- The wrapped distance from `f` of `(f + D) mod k` is `D` again. -/
theorem jOf_mod (k f D : Nat) (hf : f < k) (hD : D < k) :
    (if f ≤ (f + D) % k then (f + D) % k - f else (f + D) % k + k - f) = D := by
  by_cases h : f + D < k
  · rw [Nat.mod_eq_of_lt h]
    split_ifs <;> omega
  · rw [Nat.mod_eq_sub_mod (by omega), Nat.mod_eq_of_lt (by omega)]
    split_ifs <;> omega

/-- RO offset of the `start_shard` visit (`start_adj = ro_offset mod C`):
byte `t` of its `shard_bl` lands `t` plus the skipped full stripes past
the window's RO start. -/
theorem roA_eq (k C a f w t : Nat) (hk : 0 < k) (hC : 0 < C)
    (hf : f < k) (hw : w < C) :
    calc_ro_offset k C f (a * C + w + t) =
      a * (k * C) + f * C + w + (0 + t + (t + w) / C * ((k - 1) * C)) := by
  obtain ⟨d, e, htw, he⟩ : ∃ d e, t + w = C * d + e ∧ e < C :=
    ⟨(t + w) / C, (t + w) % C, (Nat.div_add_mod _ C).symm, Nat.mod_lt _ hC⟩
  have hdiv : (t + w) / C = d := by
    rw [htw, mul_add_div_small C d e hC he]
  have hq : a * C + w + t = C * (a + d) + e := by
    rw [show C * (a + d) + e = a * C + (C * d + e) from by ring, ← htw]
    ring
  simp only [calc_ro_offset]
  rw [hdiv, hq, mul_add_div_small C (a + d) e hC he,
    mul_add_mod_small C (a + d) e he]
  have e1 : (a + d) * (k * C) = a * (k * C) + d * (k * C) := by ring
  have e2 : d * (k * C) = d * ((k - 1) * C) + C * d := by
    rw [← pred_mul_add k C hk]
    ring
  omega

/-- Shard offsets before the `start_shard` visit's first byte map below
the window's RO start. -/
theorem roA_lt (k C a f w q : Nat) (hk : 0 < k) (hC : 0 < C)
    (hw : w < C) (hq : q < a * C + w) :
    calc_ro_offset k C f q < a * (k * C) + f * C + w := by
  obtain ⟨g, m, rfl, hm⟩ : ∃ g m, q = C * g + m ∧ m < C :=
    ⟨q / C, q % C, (Nat.div_add_mod q C).symm, Nat.mod_lt q hC⟩
  simp only [calc_ro_offset]
  rw [mul_add_div_small C g m hC hm, mul_add_mod_small C g m hm]
  have hga : g ≤ a := by
    by_contra hc
    have : C * (a + 1) ≤ C * g := Nat.mul_le_mul_left C (by omega)
    have hca : C * (a + 1) = a * C + C := by ring
    omega
  rcases Nat.lt_or_ge g a with hlt | hge
  · have h1 : (g + 1) * (k * C) ≤ a * (k * C) :=
      Nat.mul_le_mul_right _ (by omega)
    have h2 : (g + 1) * (k * C) = g * (k * C) + k * C := by ring
    have h3 : C ≤ k * C := Nat.le_mul_of_pos_left C hk
    omega
  · have hga2 : g = a := by omega
    subst hga2
    have hca : C * g = g * C := by ring
    omega

/-- RO offset of an unwrapped later visit (`start_adj = 0`): byte `t` of
its `shard_bl` lands at buffer position `n * C - (ro_offset mod C) + t`
plus the skipped stripes. -/
theorem roB_eq (k C a f w n t : Nat) (hk : 0 < k) (hC : 0 < C)
    (hf : f < k) (hw : w < C) (hn : 0 < n) (hfn : f + n < k) :
    calc_ro_offset k C (f + n) (a * C + t) =
      a * (k * C) + f * C + w
        + (n * C - w + t + t / C * ((k - 1) * C)) := by
  obtain ⟨d, e, rfl, he⟩ : ∃ d e, t = C * d + e ∧ e < C :=
    ⟨t / C, t % C, (Nat.div_add_mod t C).symm, Nat.mod_lt t hC⟩
  have hq : a * C + (C * d + e) = C * (a + d) + e := by ring
  simp only [calc_ro_offset]
  rw [hq, mul_add_div_small C (a + d) e hC he,
    mul_add_mod_small C (a + d) e he,
    mul_add_div_small C d e hC he]
  have e1 : (a + d) * (k * C) = a * (k * C) + d * (k * C) := by ring
  have e2 : d * (k * C) = d * ((k - 1) * C) + C * d := by
    rw [← pred_mul_add k C hk]
    ring
  have e3 : (f + n) * C = f * C + n * C := by ring
  have e4 : C ≤ n * C := Nat.le_mul_of_pos_left C hn
  omega

/-- Shard offsets before an unwrapped later visit's first byte map below
the window's RO start. -/
theorem roB_lt (k C a f w n q : Nat) (hk : 0 < k) (hC : 0 < C)
    (hw : w < C) (hfn : f + n < k) (hq : q < a * C) :
    calc_ro_offset k C (f + n) q < a * (k * C) + f * C + w := by
  obtain ⟨g, m, rfl, hm⟩ : ∃ g m, q = C * g + m ∧ m < C :=
    ⟨q / C, q % C, (Nat.div_add_mod q C).symm, Nat.mod_lt q hC⟩
  simp only [calc_ro_offset]
  rw [mul_add_div_small C g m hC hm, mul_add_mod_small C g m hm]
  have hga : g < a := by
    by_contra hc
    have : C * a ≤ C * g := Nat.mul_le_mul_left C (by omega)
    have hca : C * a = a * C := by ring
    omega
  have h1 : (g + 1) * (k * C) ≤ a * (k * C) :=
    Nat.mul_le_mul_right _ (by omega)
  have h2 : (g + 1) * (k * C) = g * (k * C) + k * C := by ring
  have h3 : (f + n + 1) * C ≤ k * C := Nat.mul_le_mul_right _ (by omega)
  have h4 : (f + n + 1) * C = (f + n) * C + C := by ring
  omega

/-- RO offset of a wrapped visit (`start_adj = chunk_size`, raw shard
`f + n - k` on the next stripe): same buffer-position formula as the
unwrapped case. -/
theorem roC_eq (k C a f w n t : Nat) (hk : 0 < k) (hC : 0 < C)
    (hf : f < k) (hw : w < C) (hn : n < k) (hnk : k ≤ f + n) :
    calc_ro_offset k C (f + n - k) (a * C + C + t) =
      a * (k * C) + f * C + w
        + (n * C - w + t + t / C * ((k - 1) * C)) := by
  obtain ⟨d, e, rfl, he⟩ : ∃ d e, t = C * d + e ∧ e < C :=
    ⟨t / C, t % C, (Nat.div_add_mod t C).symm, Nat.mod_lt t hC⟩
  have hq : a * C + C + (C * d + e) = C * (a + 1 + d) + e := by ring
  simp only [calc_ro_offset]
  rw [hq, mul_add_div_small C (a + 1 + d) e hC he,
    mul_add_mod_small C (a + 1 + d) e he,
    mul_add_div_small C d e hC he]
  have e1 : (a + 1 + d) * (k * C) =
      a * (k * C) + k * C + d * (k * C) := by ring
  have e2 : d * (k * C) = d * ((k - 1) * C) + C * d := by
    rw [← pred_mul_add k C hk]
    ring
  have e5 : (f + n - k) * C + k * C = (f + n) * C := by
    rw [← Nat.add_mul]
    congr 1
    omega
  have e3 : (f + n) * C = f * C + n * C := by ring
  have e4 : C ≤ n * C := Nat.le_mul_of_pos_left C (by omega)
  omega

/-- Shard offsets before a wrapped visit's first byte map below the
window's RO start. -/
theorem roC_lt (k C a f w n q : Nat) (hk : 0 < k) (hC : 0 < C)
    (hw : w < C) (hn : n < k) (hnk : k ≤ f + n) (hfk : f < k)
    (hq : q < a * C + C) :
    calc_ro_offset k C (f + n - k) q < a * (k * C) + f * C + w := by
  obtain ⟨g, m, rfl, hm⟩ : ∃ g m, q = C * g + m ∧ m < C :=
    ⟨q / C, q % C, (Nat.div_add_mod q C).symm, Nat.mod_lt q hC⟩
  simp only [calc_ro_offset]
  rw [mul_add_div_small C g m hC hm, mul_add_mod_small C g m hm]
  have hga : g ≤ a := by
    by_contra hc
    have : C * (a + 1) ≤ C * g := Nat.mul_le_mul_left C (by omega)
    have hca : C * (a + 1) = a * C + C := by ring
    omega
  have hr1 : f + n - k + 1 ≤ f := by omega
  rcases Nat.lt_or_ge g a with hlt | hge
  · have h1 : (g + 1) * (k * C) ≤ a * (k * C) :=
      Nat.mul_le_mul_right _ (by omega)
    have h2 : (g + 1) * (k * C) = g * (k * C) + k * C := by ring
    have h3 : (f + n - k + 1) * C ≤ k * C :=
      Nat.mul_le_mul_right _ (by omega)
    have h4 : (f + n - k + 1) * C = (f + n - k) * C + C := by ring
    omega
  · have hga2 : g = a := by omega
    subst hga2
    have h3 : (f + n - k + 1) * C ≤ f * C := Nat.mul_le_mul_right _ hr1
    have h4 : (f + n - k + 1) * C = (f + n - k) * C + C := by ring
    omega

/-- One `insert_in_shard` step, read back pointwise: given the index
formula for the inserted buffer's bytes (`hget`), the RO correspondence
for covered offsets (`hkey`) and the below-window bound (`hlt`), the
result holds the source byte at `calc_ro_offset - O` exactly on the
window `[O, O + |bl|)` of RO offsets. -/
theorem insert_point_abs (k C : Nat) (M : SMap) (sh off O r : Nat)
    (b bl : Buf) (q : Nat) (J : Nat → Nat)
    (hget : ∀ t, b.get? t = if J t < bl.length then bl.get? (J t) else none)
    (hkey : ∀ t, calc_ro_offset k C r (off + t) = O + J t)
    (hlt : ∀ p, p < off → calc_ro_offset k C r p < O) :
    insert_in_shard_bytes M sh off b sh q =
      if O ≤ calc_ro_offset k C r q ∧ calc_ro_offset k C r q < O + bl.length
      then bl.get? (calc_ro_offset k C r q - O)
      else M sh q := by
  rw [insert_in_shard_bytes_self]
  have hlen : ∀ u, u < b.length ↔ J u < bl.length := by
    intro u
    rw [← get_isSome_iff b u, hget u]
    by_cases hJ : J u < bl.length
    · rw [if_pos hJ]
      simp [get_isSome_iff, hJ]
    · rw [if_neg hJ]
      simp [hJ]
  by_cases hq : off ≤ q
  · obtain ⟨t, rfl⟩ : ∃ t, q = off + t := ⟨q - off, by omega⟩
    have hkey' := hkey t
    have hsub : off + t - off = t := by omega
    rw [hsub]
    by_cases hin : t < b.length
    · have hJt := (hlen t).mp hin
      rw [if_pos ⟨Nat.le_add_right off t, hin⟩, hget t, if_pos hJt,
        if_pos ⟨by omega, by omega⟩]
      congr 1
      omega
    · rw [if_neg (fun hc => hin hc.2),
        if_neg (fun hc => hin ((hlen t).mpr (by omega)))]
  · have hltq := hlt q (by omega)
    rw [if_neg (by omega), if_neg (by omega)]

/-- Quotients and remainder of a decomposed RO offset
`O = a * stripe_width + f * chunk_size + w`. -/
theorem O_div_facts (k C a f w : Nat) (hk : 0 < k) (hC : 0 < C)
    (hf : f < k) (hw : w < C) :
    (a * (k * C) + f * C + w) / (k * C) = a
    ∧ (a * (k * C) + f * C + w - a * (k * C)) / C = f
    ∧ (a * (k * C) + f * C + w) % C = w := by
  have hS : 0 < k * C := Nat.mul_pos hk hC
  have hfCw : f * C + w < k * C := by
    have h1 : (f + 1) * C ≤ k * C := Nat.mul_le_mul_right _ (by omega)
    have h2 : (f + 1) * C = f * C + C := by ring
    omega
  refine ⟨?_, ?_, ?_⟩
  · rw [show a * (k * C) + f * C + w = (k * C) * a + (f * C + w) from by ring]
    exact mul_add_div_small (k * C) a _ hS hfCw
  · rw [show a * (k * C) + f * C + w - a * (k * C) = f * C + w from by omega,
      show f * C + w = C * f + w from by ring]
    exact mul_add_div_small C f w hC hw
  · rw [show a * (k * C) + f * C + w = C * (a * k + f) + w from by ring]
    exact mul_add_mod_small C _ w hw

/-- The `buffer_shard_start_offset` accumulator after visit `n` is
`(n + 1) * C - ro_offset mod C` in every branch. -/
theorem smap_visit_snd (k C : Nat) (mapping : List Nat) (L : Nat) (bl : Buf)
    (st : SMap × Nat) (a f w n : Nat) (hk : 0 < k) (hC : 0 < C)
    (hf : f < k) (hw : w < C) (hn : n < k)
    (hB : st.2 = if n = 0 then 0 else n * C - w) :
    (smap_visit k C mapping (a * (k * C) + f * C + w) L bl st n).2 =
      (n + 1) * C - w := by
  obtain ⟨hOd, hss, hOm⟩ := O_div_facts k C a f w hk hC hf hw
  simp only [smap_visit]
  rw [hOd, hss, hOm, hB]
  rcases Nat.eq_zero_or_pos n with rfl | hn1
  · split_ifs <;> omega
  · have hCn : C ≤ n * C := Nat.le_mul_of_pos_left C hn1
    have hn1C : (n + 1) * C = n * C + C := by ring
    split_ifs <;> omega

/-- One loop visit of the buffer-splitting mode, read back pointwise on
any data shard: visit `n` writes exactly the RO window bytes that
`calc_ro_offset` maps to its raw shard, and leaves every other data shard
untouched (the chunk mapping being injective on raw shards). -/
theorem smap_visit_point (k C : Nat) (mapping : List Nat) (L : Nat) (bl : Buf)
    (st : SMap × Nat) (a f w n r q : Nat) (hk : 0 < k) (hC : 0 < C)
    (hf : f < k) (hw : w < C) (hn : n < k) (hr : r < k)
    (hB : st.2 = if n = 0 then 0 else n * C - w)
    (hinj : ∀ r1, r1 < k → ∀ r2, r2 < k →
      map_shard mapping r1 = map_shard mapping r2 → r1 = r2) :
    (smap_visit k C mapping (a * (k * C) + f * C + w) L bl st n).1
        (map_shard mapping r) q =
      if (if f + n ≥ k then f + n - k else f + n) = r
          ∧ a * (k * C) + f * C + w ≤ calc_ro_offset k C r q
          ∧ calc_ro_offset k C r q
              < a * (k * C) + f * C + w + bl.length
      then bl.get? (calc_ro_offset k C r q - (a * (k * C) + f * C + w))
      else st.1 (map_shard mapping r) q := by
  obtain ⟨hOd, hss, hOm⟩ := O_div_facts k C a f w hk hC hf hw
  simp only [smap_visit]
  rw [hOd, hss, hOm]
  rcases Nat.eq_zero_or_pos n with rfl | hn1
  · have hB0 : st.2 = 0 := by rw [hB]; rfl
    rw [hB0]
    have hraw : (if f + 0 ≥ k then f + 0 - k else f + 0) = f := by
      rw [if_neg (by omega)]
      omega
    rw [hraw]
    have hadj : (if f < f then C else if f = f then w else 0) = w := by
      rw [if_neg (Nat.lt_irrefl f), if_pos rfl]
    rw [hadj, if_pos (show C ≠ w from by omega)]
    by_cases hfr : f = r
    · subst hfr
      rw [insert_point_abs k C st.1 (map_shard mapping f) (a * C + w)
        (a * (k * C) + f * C + w) f _ bl q
        (fun t => 0 + t + (t + w) / C * ((k - 1) * C))
        (shard_bl_general_get C k bl 0 w hC hk hw)
        (fun t => roA_eq k C a f w t hk hC hf hw)
        (fun p hp => roA_lt k C a f w p hk hC hw hp)]
      exact if_congr ⟨fun h => ⟨rfl, h⟩, And.right⟩ rfl rfl
    · have hne : map_shard mapping r ≠ map_shard mapping f :=
        fun hc => hfr ((hinj r hr f (by omega) hc).symm)
      rw [insert_in_shard_bytes_other st.1 _ (map_shard mapping f)
        (a * C + w) (map_shard mapping r) q hne,
        if_neg (fun hc => hfr hc.1)]
  · have hBn : st.2 = n * C - w := by rw [hB, if_neg (by omega)]
    rw [hBn]
    by_cases hnk : k ≤ f + n
    · have hraw : (if f + n ≥ k then f + n - k else f + n) = f + n - k := by
        rw [if_pos hnk]
      rw [hraw]
      have hadj : (if f + n - k < f then C
          else if f + n - k = f then w else 0) = C := by
        rw [if_pos (by omega)]
      rw [hadj, if_neg (show ¬ C ≠ C from fun h => h rfl)]
      by_cases hfr : f + n - k = r
      · subst hfr
        rw [insert_point_abs k C st.1 (map_shard mapping (f + n - k))
          (a * C + C) (a * (k * C) + f * C + w) (f + n - k) _ bl q
          (fun t => n * C - w + t + t / C * ((k - 1) * C))
          (shard_bl_else_get C k bl (n * C - w) hC hk)
          (fun t => roC_eq k C a f w n t hk hC hf hw hn hnk)
          (fun p hp => roC_lt k C a f w n p hk hC hw hn hnk hf hp)]
        exact if_congr ⟨fun h => ⟨rfl, h⟩, And.right⟩ rfl rfl
      · have hne : map_shard mapping r ≠ map_shard mapping (f + n - k) :=
          fun hc => hfr ((hinj r hr (f + n - k) (by omega) hc).symm)
        rw [insert_in_shard_bytes_other st.1 _ (map_shard mapping (f + n - k))
          (a * C + C) (map_shard mapping r) q hne,
          if_neg (fun hc => hfr hc.1)]
    · have hraw : (if f + n ≥ k then f + n - k else f + n) = f + n := by
        rw [if_neg hnk]
      rw [hraw]
      have hadj : (if f + n < f then C
          else if f + n = f then w else 0) = 0 := by
        rw [if_neg (by omega), if_neg (by omega)]
      rw [hadj, if_pos (show C ≠ 0 from by omega)]
      by_cases hfr : f + n = r
      · subst hfr
        rw [insert_point_abs k C st.1 (map_shard mapping (f + n))
          (a * C + 0) (a * (k * C) + f * C + w) (f + n) _ bl q
          (fun t => n * C - w + t + (t + 0) / C * ((k - 1) * C))
          (shard_bl_general_get C k bl (n * C - w) 0 hC hk hC)
          (fun t => roB_eq k C a f w n t hk hC hf hw hn1 (by omega))
          (fun p hp => roB_lt k C a f w n p hk hC hw (by omega) hp)]
        exact if_congr ⟨fun h => ⟨rfl, h⟩, And.right⟩ rfl rfl
      · have hne : map_shard mapping r ≠ map_shard mapping (f + n) :=
          fun hc => hfr ((hinj r hr (f + n) (by omega) hc).symm)
        rw [insert_in_shard_bytes_other st.1 _ (map_shard mapping (f + n))
          (a * C + 0) (map_shard mapping r) q hne,
          if_neg (fun hc => hfr hc.1)]

/-- Collapsing a nested conditional with equal true-branches. -/
theorem ite_ite_or {α : Sort u_1} (c1 c2 c3 : Prop) [Decidable c1]
    [Decidable c2] [Decidable c3] (h : c3 ↔ c1 ∨ c2) (V E : α) :
    (if c1 then V else if c2 then V else E) = if c3 then V else E := by
  by_cases h1 : c1
  · rw [if_pos h1, if_pos (h.mpr (Or.inl h1))]
  · rw [if_neg h1]
    by_cases h2 : c2
    · rw [if_pos h2, if_pos (h.mpr (Or.inr h2))]
    · rw [if_neg h2, if_neg (fun hc => (h.mp hc).elim h1 h2)]

/-- The shard-winding loop after `n` visits: the accumulator value, and
the pointwise contents - raw shards at wrapped distance below `n` carry
their RO window bytes, the rest still hold the incoming map. -/
theorem visits_fold (k C : Nat) (mapping : List Nat) (L : Nat) (bl : Buf)
    (M : SMap) (a f w : Nat) (hk : 0 < k) (hC : 0 < C)
    (hf : f < k) (hw : w < C)
    (hinj : ∀ r1, r1 < k → ∀ r2, r2 < k →
      map_shard mapping r1 = map_shard mapping r2 → r1 = r2) :
    ∀ n, n ≤ k →
      ((List.range n).foldl
          (smap_visit k C mapping (a * (k * C) + f * C + w) L bl)
          (M, 0)).2
        = (if n = 0 then 0 else n * C - w)
      ∧ ∀ r, r < k → ∀ q,
        ((List.range n).foldl
            (smap_visit k C mapping (a * (k * C) + f * C + w) L bl)
            (M, 0)).1 (map_shard mapping r) q =
          if (if f ≤ r then r - f else r + k - f) < n
              ∧ a * (k * C) + f * C + w ≤ calc_ro_offset k C r q
              ∧ calc_ro_offset k C r q
                  < a * (k * C) + f * C + w + bl.length
          then bl.get?
            (calc_ro_offset k C r q - (a * (k * C) + f * C + w))
          else M (map_shard mapping r) q := by
  intro n
  induction n with
  | zero =>
    intro _
    refine ⟨rfl, fun r hr q => ?_⟩
    rw [if_neg (by omega)]
    rfl
  | succ n ih =>
    intro hnk
    have hn : n < k := by omega
    obtain ⟨ih2, ih1⟩ := ih (by omega)
    rw [List.range_succ, List.foldl_append, List.foldl_cons, List.foldl_nil]
    constructor
    · rw [smap_visit_snd k C mapping L bl _ a f w n hk hC hf hw hn ih2,
        if_neg (by omega)]
    · intro r hr q
      rw [smap_visit_point k C mapping L bl _ a f w n r q
        hk hC hf hw hn hr ih2 hinj, ih1 r hr q]
      refine ite_ite_or _ _ _ ?_ _ _
      constructor
      · rintro ⟨hlt, hP⟩
        by_cases hjn : (if f ≤ r then r - f else r + k - f) = n
        · exact Or.inl ⟨(raw_eq_iff_jOf k f n r hf hn hr).mpr hjn, hP⟩
        · exact Or.inr ⟨by omega, hP⟩
      · rintro (⟨hraw, hP⟩ | ⟨hlt, hP⟩)
        · have := (raw_eq_iff_jOf k f n r hf hn hr).mp hraw
          exact ⟨by omega, hP⟩
        · exact ⟨by omega, hP⟩

/-- A raw shard holding any byte of the RO window is visited: its wrapped
distance from `start_shard` is below `min(chunk_count, k)`. -/
theorem jOf_lt_min_cc (k C a f w r q L : Nat) (hk : 0 < k) (hC : 0 < C)
    (hf : f < k) (hw : w < C) (hr : r < k) (hL : 0 < L)
    (hge : a * (k * C) + f * C + w ≤ calc_ro_offset k C r q)
    (hlt : calc_ro_offset k C r q < a * (k * C) + f * C + w + L) :
    (if f ≤ r then r - f else r + k - f) <
      min ((a * (k * C) + f * C + w + L + C - 1) / C
           - (a * (k * C) + f * C + w) / C) k := by
  have hOC : (a * (k * C) + f * C + w) / C = a * k + f := by
    rw [show a * (k * C) + f * C + w = C * (a * k + f) + w from by ring]
    exact mul_add_div_small C _ w hC hw
  have hpC : calc_ro_offset k C r q / C = q / C * k + r := by
    simp only [calc_ro_offset]
    rw [show q / C * (k * C) + r * C + q % C
        = C * (q / C * k + r) + q % C from by ring]
    exact mul_add_div_small C _ _ hC (Nat.mod_lt q hC)
  have hcc : (a * (k * C) + f * C + w + L + C - 1) / C
      = (a * (k * C) + f * C + w + L - 1) / C + 1 :=
    ceil_div_sub_one C (a * (k * C) + f * C + w + L) hC (by omega)
  have hmono1 : (a * (k * C) + f * C + w) / C ≤ calc_ro_offset k C r q / C :=
    Nat.div_le_div_right hge
  have hmono2 : calc_ro_offset k C r q / C
      ≤ (a * (k * C) + f * C + w + L - 1) / C :=
    Nat.div_le_div_right (by omega)
  obtain ⟨D, hD2⟩ : ∃ D, calc_ro_offset k C r q / C
      = (a * (k * C) + f * C + w) / C + D :=
    ⟨calc_ro_offset k C r q / C - (a * (k * C) + f * C + w) / C, by omega⟩
  have hD : q / C * k + r = a * k + f + D := by
    rw [← hpC, hD2, hOC]
  have hrD : r = (f + D) % k := by
    have h1 : (q / C * k + r) % k = r := by
      rw [show q / C * k + r = k * (q / C) + r from by ring]
      exact mul_add_mod_small k _ r hr
    have h2 : (a * k + f + D) % k = (f + D) % k := by
      rw [show a * k + f + D = k * a + (f + D) from by ring, Nat.mul_add_mod]
    rw [← h1, hD, h2]
  have hDcc : D < (a * (k * C) + f * C + w + L + C - 1) / C
      - (a * (k * C) + f * C + w) / C := by
    rw [hcc]
    omega
  rcases Nat.lt_or_ge D k with hDk | hDk
  · rw [hrD, jOf_mod k f D hf hDk]
    omega
  · have := jOf_lt k f r hf hr
    omega

/-- The buffer-splitting mode of `ro_range_to_shards`, read back
pointwise: on data shard `r` the result holds byte `calc_ro_offset - O`
of `bl` exactly on the RO window `[O, O + |bl|)`, and the incoming map
everywhere else. -/
theorem ro_range_to_smap_point (k C : Nat) (mapping : List Nat) (bl : Buf)
    (M : SMap) (O r q : Nat) (hk : 0 < k) (hC : 0 < C) (hr : r < k)
    (hinj : ∀ r1, r1 < k → ∀ r2, r2 < k →
      map_shard mapping r1 = map_shard mapping r2 → r1 = r2) :
    ro_range_to_smap k C mapping O bl.length bl M (map_shard mapping r) q =
      if O ≤ calc_ro_offset k C r q
          ∧ calc_ro_offset k C r q < O + bl.length
      then bl.get? (calc_ro_offset k C r q - O)
      else M (map_shard mapping r) q := by
  by_cases hL : bl.length = 0
  · simp only [ro_range_to_smap]
    rw [if_pos hL, if_neg (by omega)]
  · obtain ⟨a, f, w, hO, hf, hw⟩ :
        ∃ a f w, O = a * (k * C) + f * C + w ∧ f < k ∧ w < C := by
      refine ⟨O / (k * C), O % (k * C) / C, O % C, ?_, ?_, ?_⟩
      · have hS : 0 < k * C := Nat.mul_pos hk hC
        have h1 := Nat.div_add_mod O (k * C)
        have h2 := Nat.div_add_mod (O % (k * C)) C
        have h3 : O % (k * C) % C = O % C :=
          Nat.mod_mod_of_dvd O (dvd_mul_left C k)
        have c1 : O / (k * C) * (k * C) = k * C * (O / (k * C)) :=
          Nat.mul_comm _ _
        have c2 : O % (k * C) / C * C = C * (O % (k * C) / C) :=
          Nat.mul_comm _ _
        omega
      · exact (Nat.div_lt_iff_lt_mul hC).mpr
          (Nat.mod_lt O (Nat.mul_pos hk hC))
      · exact Nat.mod_lt O hC
    subst hO
    obtain ⟨hOd, hss, hOm⟩ := O_div_facts k C a f w hk hC hf hw
    simp only [ro_range_to_smap]
    rw [if_neg hL, hOd, hss,
      show f + min ((a * (k * C) + f * C + w + bl.length + C - 1) / C
          - (a * (k * C) + f * C + w) / C) k - f
        = min ((a * (k * C) + f * C + w + bl.length + C - 1) / C
          - (a * (k * C) + f * C + w) / C) k from by omega]
    obtain ⟨_, hpt⟩ := visits_fold k C mapping bl.length bl M a f w
      hk hC hf hw hinj
      (min ((a * (k * C) + f * C + w + bl.length + C - 1) / C
        - (a * (k * C) + f * C + w) / C) k)
      (Nat.min_le_right _ _)
    rw [hpt r hr q]
    refine if_congr ⟨And.right, fun h => ⟨?_, h⟩⟩ rfl rfl
    exact jOf_lt_min_cc k C a f w r q bl.length hk hC hf hw hr
      (by omega) h.1 h.2

/-- The window loop of `get_ro_buffer` after `n` windows: the raw-shard
counter threads `(ro_off / C + n) mod k`, and the accumulated buffer is
the RO range's prefix covered so far, read through the shard map. -/
theorem ro_window_fold_inv (k C : Nat) (mapping : List Nat) (M : SMap)
    (ro_off ro_len : Nat) (hk : 0 < k) (hC : 0 < C)
    (H : ∀ t, t < ro_len →
      (M (map_shard mapping ((ro_off + t) / C % k))
        ((ro_off + t) / (k * C) * C + (ro_off + t) % C)).isSome) :
    ∀ n, (∀ j, j < n → ro_off - ro_off % C + j * C < ro_off + ro_len) →
    (List.range n).foldl
        (ro_window_step k C mapping M ro_off ro_len (ro_off - ro_off % C))
        (ro_off / C % k, some [])
      = ((if n = 0 then ro_off / C % k else (ro_off / C + (n - 1)) % k + 1),
         some ((List.range (min ro_len (ro_off - ro_off % C + n * C - ro_off))).map
           (fun u => (M (map_shard mapping ((ro_off + u) / C % k)) ((ro_off + u) / (k * C) * C + (ro_off + u) % C)).getD 0))) := by
  intro n
  induction n with
  | zero =>
    intro _
    have h0 : min ro_len (ro_off - ro_off % C + 0 * C - ro_off) = 0 := by
      have := Nat.mod_le ro_off C
      omega
    rw [h0, List.range_zero, List.foldl_nil, List.map_nil, if_pos rfl]
  | succ n ih =>
    intro hwin
    have hw := hwin n (Nat.lt_succ_self n)
    have hmle := Nat.mod_le ro_off C
    have hmC : ro_off % C < C := Nat.mod_lt ro_off hC
    have hdm := Nat.div_add_mod ro_off C
    have hchunkC : ro_off - ro_off % C + n * C = C * (ro_off / C + n) := by
      have h1 : C * (ro_off / C + n) = C * (ro_off / C) + n * C := by ring
      omega
    rw [List.range_succ, List.foldl_append, List.foldl_cons, List.foldl_nil,
      ih (fun j hj => hwin j (by omega))]
    simp only [ro_window_step]
    have hAeff : (if (if n = 0 then ro_off / C % k else (ro_off / C + (n - 1)) % k + 1) = k then 0 else (if n = 0 then ro_off / C % k else (ro_off / C + (n - 1)) % k + 1))
        = (ro_off / C + n) % k := by
      rcases Nat.eq_zero_or_pos n with rfl | hn1
      · rw [if_pos rfl]
        have h1 : ro_off / C % k < k := Nat.mod_lt _ hk
        rw [if_neg (by omega), Nat.add_zero]
      · have hA1 : (if n = 0 then ro_off / C % k
            else (ro_off / C + (n - 1)) % k + 1)
            = (ro_off / C + (n - 1)) % k + 1 := if_neg (by omega)
        rw [hA1]
        have hy : (ro_off / C + (n - 1)) % k < k := Nat.mod_lt _ hk
        have hmm : ((ro_off / C + (n - 1)) % k + 1) % k
            = (ro_off / C + n) % k := by
          rw [Nat.mod_add_mod]
          congr 1
          omega
        by_cases hyk : (ro_off / C + (n - 1)) % k + 1 = k
        · rw [if_pos hyk, ← hmm, hyk, Nat.mod_self]
        · rw [if_neg hyk, ← hmm,
            Nat.mod_eq_of_lt
              (show (ro_off / C + (n - 1)) % k + 1 < k from by omega)]
      
    rw [hAeff]
    have hsubabs : max (ro_off - ro_off % C + n * C) ro_off = ro_off + (min ro_len (ro_off - ro_off % C + n * C - ro_off)) := by
      omega
    have hminmax : max (ro_off - ro_off % C + n * C) ro_off ≤ min (ro_off + ro_len) (ro_off - ro_off % C + n * C + C) := by
      omega
    have hpdec : ∀ t, t < min (ro_off + ro_len) (ro_off - ro_off % C + n * C + C) - max (ro_off - ro_off % C + n * C) ro_off →
        ro_off + ((min ro_len (ro_off - ro_off % C + n * C - ro_off)) + t)
          = C * (ro_off / C + n)
            + (ro_off + ((min ro_len (ro_off - ro_off % C + n * C - ro_off)) + t) - (ro_off - ro_off % C + n * C)) ∧
        ro_off + ((min ro_len (ro_off - ro_off % C + n * C - ro_off)) + t) - (ro_off - ro_off % C + n * C) < C := by
      intro t ht
      omega
    have hpdiv : ∀ t, t < min (ro_off + ro_len) (ro_off - ro_off % C + n * C + C) - max (ro_off - ro_off % C + n * C) ro_off →
        (ro_off + ((min ro_len (ro_off - ro_off % C + n * C - ro_off)) + t)) / C = ro_off / C + n := by
      intro t ht
      obtain ⟨h1, h2⟩ := hpdec t ht
      rw [h1, mul_add_div_small C _ _ hC (by omega)]
    have hpmod : ∀ t, t < min (ro_off + ro_len) (ro_off - ro_off % C + n * C + C) - max (ro_off - ro_off % C + n * C) ro_off →
        (ro_off + ((min ro_len (ro_off - ro_off % C + n * C - ro_off)) + t)) % C
          = ro_off + ((min ro_len (ro_off - ro_off % C + n * C - ro_off)) + t) - (ro_off - ro_off % C + n * C) := by
      intro t ht
      obtain ⟨h1, h2⟩ := hpdec t ht
      conv =>
        lhs
        rw [h1]
      rw [mul_add_mod_small C _ _ h2]
    have hpk : ∀ t, t < min (ro_off + ro_len) (ro_off - ro_off % C + n * C + C) - max (ro_off - ro_off % C + n * C) ro_off →
        (ro_off + ((min ro_len (ro_off - ro_off % C + n * C - ro_off)) + t)) / (k * C) = (ro_off / C + n) / k := by
      intro t ht
      rw [Nat.mul_comm k C, ← Nat.div_div_eq_div_mul, hpdiv t ht]
    have hchdiv : (ro_off - ro_off % C + n * C) / (k * C) = (ro_off / C + n) / k := by
      rw [hchunkC, Nat.mul_comm k C, Nat.mul_div_mul_left _ _ hC]
    have hqOf : ∀ t, t < min (ro_off + ro_len) (ro_off - ro_off % C + n * C + C) - max (ro_off - ro_off % C + n * C) ro_off →
        (ro_off + ((min ro_len (ro_off - ro_off % C + n * C - ro_off)) + t)) / (k * C) * C
            + (ro_off + ((min ro_len (ro_off - ro_off % C + n * C - ro_off)) + t)) % C
          = (ro_off - ro_off % C + n * C) / (k * C) * C + max (ro_off - ro_off % C + n * C) ro_off - (ro_off - ro_off % C + n * C) + t := by
      intro t ht
      rw [hpk t ht, hpmod t ht, hchdiv]
      omega
    have hshk : ∀ t, t < min (ro_off + ro_len) (ro_off - ro_off % C + n * C + C) - max (ro_off - ro_off % C + n * C) ro_off →
        (ro_off + ((min ro_len (ro_off - ro_off % C + n * C - ro_off)) + t)) / C % k = (ro_off / C + n) % k := by
      intro t ht
      rw [hpdiv t ht]
    have hbound : ∀ t, t < min (ro_off + ro_len) (ro_off - ro_off % C + n * C + C) - max (ro_off - ro_off % C + n * C) ro_off → (min ro_len (ro_off - ro_off % C + n * C - ro_off)) + t < ro_len := by
      intro t ht
      omega
    have hall : (List.range (min (ro_off + ro_len) (ro_off - ro_off % C + n * C + C) - max (ro_off - ro_off % C + n * C) ro_off)).all
        (fun t => (M (map_shard mapping ((ro_off / C + n) % k))
          ((ro_off - ro_off % C + n * C) / (k * C) * C + max (ro_off - ro_off % C + n * C) ro_off - (ro_off - ro_off % C + n * C) + t)).isSome) = true := by
      rw [List.all_eq_true]
      intro t htm
      rw [List.mem_range] at htm
      show (M (map_shard mapping ((ro_off / C + n) % k))
        ((ro_off - ro_off % C + n * C) / (k * C) * C + max (ro_off - ro_off % C + n * C) ro_off - (ro_off - ro_off % C + n * C) + t)).isSome = true
      rw [← hshk t htm, ← hqOf t htm]
      exact H ((min ro_len (ro_off - ro_off % C + n * C - ro_off)) + t) (hbound t htm)
    have hpiece : get_buffer_bytes M
        (map_shard mapping ((ro_off / C + n) % k)) ((ro_off - ro_off % C + n * C) / (k * C) * C + max (ro_off - ro_off % C + n * C) ro_off - (ro_off - ro_off % C + n * C)) (min (ro_off + ro_len) (ro_off - ro_off % C + n * C + C) - max (ro_off - ro_off % C + n * C) ro_off)
        = some ((List.range (min (ro_off + ro_len) (ro_off - ro_off % C + n * C + C) - max (ro_off - ro_off % C + n * C) ro_off)).map
            (fun t => (M (map_shard mapping ((ro_off / C + n) % k))
              ((ro_off - ro_off % C + n * C) / (k * C) * C + max (ro_off - ro_off % C + n * C) ro_off - (ro_off - ro_off % C + n * C) + t)).getD 0)) := by
      simp only [get_buffer_bytes]
      rw [if_pos hall]
    rw [hpiece]
    refine Prod.ext ?_ ?_
    · show (ro_off / C + n) % k + 1
        = if n + 1 = 0 then ro_off / C % k
          else (ro_off / C + (n + 1 - 1)) % k + 1
      rw [if_neg (by omega), Nat.add_sub_cancel]
    · show some (((List.range (min ro_len (ro_off - ro_off % C + n * C - ro_off))).map
          (fun u => (M (map_shard mapping ((ro_off + u) / C % k)) ((ro_off + u) / (k * C) * C + (ro_off + u) % C)).getD 0))
        ++ (List.range (min (ro_off + ro_len) (ro_off - ro_off % C + n * C + C) - max (ro_off - ro_off % C + n * C) ro_off)).map
            (fun t => (M (map_shard mapping ((ro_off / C + n) % k))
              ((ro_off - ro_off % C + n * C) / (k * C) * C + max (ro_off - ro_off % C + n * C) ro_off - (ro_off - ro_off % C + n * C) + t)).getD 0))
        = some ((List.range (min ro_len (ro_off - ro_off % C + (n + 1) * C - ro_off))).map
            (fun u => (M (map_shard mapping ((ro_off + u) / C % k)) ((ro_off + u) / (k * C) * C + (ro_off + u) % C)).getD 0))
      refine congrArg some ?_
      have hmap : (List.range (min (ro_off + ro_len) (ro_off - ro_off % C + n * C + C) - max (ro_off - ro_off % C + n * C) ro_off)).map
          (fun t => (M (map_shard mapping ((ro_off / C + n) % k))
            ((ro_off - ro_off % C + n * C) / (k * C) * C + max (ro_off - ro_off % C + n * C) ro_off - (ro_off - ro_off % C + n * C) + t)).getD 0)
          = (List.range (min (ro_off + ro_len) (ro_off - ro_off % C + n * C + C) - max (ro_off - ro_off % C + n * C) ro_off)).map
            (fun t => (M (map_shard mapping
                ((ro_off + ((min ro_len (ro_off - ro_off % C + n * C - ro_off)) + t)) / C % k))
              ((ro_off + ((min ro_len (ro_off - ro_off % C + n * C - ro_off)) + t)) / (k * C) * C
                + (ro_off + ((min ro_len (ro_off - ro_off % C + n * C - ro_off)) + t)) % C)).getD 0) := by
        refine List.map_congr_left ?_
        intro t htm
        rw [List.mem_range] at htm
        rw [hshk t htm, hqOf t htm]
      rw [hmap,
        show (min ro_len (ro_off - ro_off % C + (n + 1) * C - ro_off)) = (min ro_len (ro_off - ro_off % C + n * C - ro_off)) + (min (ro_off + ro_len) (ro_off - ro_off % C + n * C + C) - max (ro_off - ro_off % C + n * C) ro_off) from by
          have h1 : (n + 1) * C = n * C + C := by ring
          omega,
        List.range_add, List.map_append, List.map_map]
      rfl

/-- `calc_ro_offset` inverts the RO-to-shard position split: raw shard
`(p / C) mod k` at shard offset `(p / (k * C)) * C + p mod C` maps back
to RO offset `p`. -/
theorem calc_ro_offset_inv (k C p : Nat) (hk : 0 < k) (hC : 0 < C) :
    calc_ro_offset k C (p / C % k) (p / (k * C) * C + p % C) = p := by
  have hq1 : (p / (k * C) * C + p % C) / C = p / (k * C) := by
    rw [show p / (k * C) * C + p % C = C * (p / (k * C)) + p % C from by ring]
    exact mul_add_div_small C _ _ hC (Nat.mod_lt p hC)
  have hq2 : (p / (k * C) * C + p % C) % C = p % C := by
    rw [show p / (k * C) * C + p % C = C * (p / (k * C)) + p % C from by ring]
    exact mul_add_mod_small C _ _ (Nat.mod_lt p hC)
  simp only [calc_ro_offset]
  rw [hq1, hq2]
  have hd : p / (k * C) = p / C / k := by
    rw [Nat.mul_comm k C]
    exact (Nat.div_div_eq_div_mul p C k).symm
  rw [hd]
  have h1 := Nat.div_add_mod (p / C) k
  have h2 := Nat.div_add_mod p C
  have e1 : p / C / k * (k * C) + p / C % k * C
      = C * (k * (p / C / k) + p / C % k) := by ring
  rw [h1] at e1
  omega

/-- A fold of RO-range insertions, read back pointwise on a data shard,
equals the newest-wins RO byte record at the corresponding RO offset. -/
theorem smap_fold_point (k C : Nat) (mapping : List Nat)
    (hk : 0 < k) (hC : 0 < C)
    (hinj : ∀ r1, r1 < k → ∀ r2, r2 < k →
      map_shard mapping r1 = map_shard mapping r2 → r1 = r2) :
    ∀ (inserts : List (Nat × Buf)) (M : SMap) (g : Nat → Option Nat),
      (∀ r, r < k → ∀ q,
        M (map_shard mapping r) q = g (calc_ro_offset k C r q)) →
      ∀ r, r < k → ∀ q,
        (inserts.foldl
            (fun M p => ro_range_to_smap k C mapping p.1 p.2.length p.2 M) M)
            (map_shard mapping r) q =
          (inserts.foldl
            (fun rc p q =>
              if p.1 ≤ q ∧ q < p.1 + p.2.length then p.2.get? (q - p.1)
              else rc q) g)
            (calc_ro_offset k C r q) := by
  intro inserts
  induction inserts with
  | nil =>
    intro M g hMg r hr q
    exact hMg r hr q
  | cons p rest ih =>
    intro M g hMg r hr q
    simp only [List.foldl_cons]
    refine ih _ _ ?_ r hr q
    intro r2 hr2 q2
    rw [ro_range_to_smap_point k C mapping p.2 M p.1 r2 q2 hk hC hr2 hinj,
      hMg r2 hr2 q2]

/-- A shard-extent map populated by RO-range insertions holds, at any
data-shard position, exactly `ro_content` of the corresponding RO offset. -/
theorem smap_of_inserts_point (k C : Nat) (mapping : List Nat)
    (inserts : List (Nat × Buf)) (hk : 0 < k) (hC : 0 < C)
    (hinj : ∀ r1, r1 < k → ∀ r2, r2 < k →
      map_shard mapping r1 = map_shard mapping r2 → r1 = r2)
    (r : Nat) (hr : r < k) (q : Nat) :
    smap_of_inserts k C mapping inserts (map_shard mapping r) q =
      ro_content inserts (calc_ro_offset k C r q) := by
  simp only [smap_of_inserts, ro_content]
  exact smap_fold_point k C mapping hk hC hinj inserts smap_empty
    (fun _ => none) (fun _ _ _ => rfl) r hr q

/-- `get_ro_buffer` over a fully covered range returns the RO range's
bytes read through the shard map (window by window, each sub-chunk's
`get_buffer` succeeding). -/
theorem get_ro_buffer_eval (k C : Nat) (mapping : List Nat) (M : SMap)
    (ro_off ro_len : Nat) (hk : 0 < k) (hC : 0 < C)
    (H : ∀ t, t < ro_len →
      (M (map_shard mapping ((ro_off + t) / C % k))
        ((ro_off + t) / (k * C) * C + (ro_off + t) % C)).isSome) :
    get_ro_buffer k C mapping M ro_off ro_len =
      some ((List.range ro_len).map (fun u =>
        (M (map_shard mapping ((ro_off + u) / C % k))
          ((ro_off + u) / (k * C) * C + (ro_off + u) % C)).getD 0)) := by
  have htmp : ro_off - (ro_off - ro_off % C) = ro_off % C := by
    have := Nat.mod_le ro_off C
    omega
  simp only [get_ro_buffer]
  rw [htmp]
  have hwinN : ∀ j, j < (if (ro_off % C + ro_len) % C ≠ 0
        then ro_off % C + ro_len - (ro_off % C + ro_len) % C + C
        else ro_off % C + ro_len) / C →
      ro_off - ro_off % C + j * C < ro_off + ro_len := by
    intro j hj
    have hmle := Nat.mod_le ro_off C
    have h2 : ((if (ro_off % C + ro_len) % C ≠ 0
        then ro_off % C + ro_len - (ro_off % C + ro_len) % C + C
        else ro_off % C + ro_len) / C) * C
        ≤ (if (ro_off % C + ro_len) % C ≠ 0
          then ro_off % C + ro_len - (ro_off % C + ro_len) % C + C
          else ro_off % C + ro_len) := Nat.div_mul_le_self _ C
    have h1 : (j + 1) * C ≤ ((if (ro_off % C + ro_len) % C ≠ 0
        then ro_off % C + ro_len - (ro_off % C + ro_len) % C + C
        else ro_off % C + ro_len) / C) * C :=
      Nat.mul_le_mul_right C (by omega)
    have h3 : (j + 1) * C = j * C + C := by ring
    have h4 := Nat.mod_le (ro_off % C + ro_len) C
    have h5 : (ro_off % C + ro_len) % C < C := Nat.mod_lt _ hC
    by_cases hc : (ro_off % C + ro_len) % C = 0
    · rw [if_neg (not_not_intro hc)] at h1 h2
      omega
    · rw [if_pos hc] at h1 h2
      omega
  rw [ro_window_fold_inv k C mapping M ro_off ro_len hk hC H _ hwinN]
  have hNC : ((if (ro_off % C + ro_len) % C ≠ 0
      then ro_off % C + ro_len - (ro_off % C + ro_len) % C + C
      else ro_off % C + ro_len) / C) * C
      = (if (ro_off % C + ro_len) % C ≠ 0
        then ro_off % C + ro_len - (ro_off % C + ro_len) % C + C
        else ro_off % C + ro_len) := by
    have hdm := Nat.div_add_mod (ro_off % C + ro_len) C
    by_cases hc : (ro_off % C + ro_len) % C = 0
    · rw [if_neg (not_not_intro hc)]
      have hcm : (ro_off % C + ro_len) / C * C
          = C * ((ro_off % C + ro_len) / C) := Nat.mul_comm _ _
      omega
    · rw [if_pos hc]
      have hL : ro_off % C + ro_len - (ro_off % C + ro_len) % C + C
          = C * ((ro_off % C + ro_len) / C + 1) := by
        have hr1 : C * ((ro_off % C + ro_len) / C + 1)
            = C * ((ro_off % C + ro_len) / C) + C := by ring
        omega
      rw [hL, Nat.mul_div_cancel_left _ hC]
      have hr1 : ((ro_off % C + ro_len) / C + 1) * C
          = C * ((ro_off % C + ro_len) / C) + C := by ring
      omega
  have hfin : min ro_len (ro_off - ro_off % C
      + ((if (ro_off % C + ro_len) % C ≠ 0
        then ro_off % C + ro_len - (ro_off % C + ro_len) % C + C
        else ro_off % C + ro_len) / C) * C - ro_off) = ro_len := by
    rw [hNC]
    have hmle := Nat.mod_le ro_off C
    have h4 := Nat.mod_le (ro_off % C + ro_len) C
    have h5 : (ro_off % C + ro_len) % C < C := Nat.mod_lt _ hC
    by_cases hc : (ro_off % C + ro_len) % C = 0
    · rw [if_neg (not_not_intro hc)]
      omega
    · rw [if_pos hc]
      omega
  rw [hfin]

/-- Claim C5: for every shard-extent map populated by RO-range byte
insertions (the buffer-splitting mode of `ro_range_to_shards`, a later
insertion owning overlapped bytes) and every RO range fully covered on
the data shards, `get_ro_buffer` returns exactly the bytes originally
inserted for that range - the shard-to-RO reassembly inverts the
RO-to-shard insertion transform.  `k` and `C` are positive and the chunk
mapping is injective on raw data shards, as for every valid
`stripe_info_t`. -/
theorem get_ro_buffer_roundtrip (k C : Nat) (mapping : List Nat)
    (inserts : List (Nat × Buf)) (ro_off ro_len : Nat)
    (hk : 0 < k) (hC : 0 < C)
    (hinj : ∀ r1, r1 < k → ∀ r2, r2 < k →
      map_shard mapping r1 = map_shard mapping r2 → r1 = r2)
    (hcov : ∀ t, t < ro_len → (ro_content inserts (ro_off + t)).isSome) :
    get_ro_buffer k C mapping (smap_of_inserts k C mapping inserts)
        ro_off ro_len =
      some ((List.range ro_len).map
        (fun t => (ro_content inserts (ro_off + t)).getD 0)) := by
  have hpt : ∀ u, smap_of_inserts k C mapping inserts
      (map_shard mapping ((ro_off + u) / C % k))
      ((ro_off + u) / (k * C) * C + (ro_off + u) % C)
      = ro_content inserts (ro_off + u) := by
    intro u
    rw [smap_of_inserts_point k C mapping inserts hk hC hinj
      ((ro_off + u) / C % k) (Nat.mod_lt _ hk) _,
      calc_ro_offset_inv k C (ro_off + u) hk hC]
  rw [get_ro_buffer_eval k C mapping _ ro_off ro_len hk hC
    (fun t ht => by rw [hpt t]; exact hcov t ht)]
  refine congrArg some (List.map_congr_left ?_)
  intro t htm
  rw [hpt t]

/-- Witness: two data shards, chunk size 4, ten bytes inserted at RO
offset 6 and read back intact over the same range. -/
theorem get_ro_buffer_roundtrip_witness :
    (0 < 2 ∧ 0 < 4
      ∧ (∀ r1, r1 < 2 → ∀ r2, r2 < 2 →
          map_shard [] r1 = map_shard [] r2 → r1 = r2)
      ∧ (∀ t, t < 10 →
          (ro_content [(6, [10, 11, 12, 13, 14, 15, 16, 17, 18, 19])] (6 + t)).isSome))
    ∧ get_ro_buffer 2 4 []
        (smap_of_inserts 2 4 [] [(6, [10, 11, 12, 13, 14, 15, 16, 17, 18, 19])]) 6 10 =
      some [10, 11, 12, 13, 14, 15, 16, 17, 18, 19] :=
  ⟨⟨by decide, by decide, by decide, by decide⟩,
    (get_ro_buffer_roundtrip 2 4 [] [(6, [10, 11, 12, 13, 14, 15, 16, 17, 18, 19])] 6 10
      (by decide) (by decide) (by decide) (by decide)).trans (by decide)⟩

end ECProof
